import Mathlib

/-!
Verification development for the skillpack resolution and installation engine
(crates/skillpack).  The Rust sources are shallowly embedded: paths are lists
of components, the filesystem is an explicit structure, fallible functions
return Except values, and the glob matching delegated to the globset crate
(with literal_separator(true) and the escaping of build_glob) is modelled as a
segment-level matcher.  String splitting and joining on the path separator is
implemented on character lists so that every definition evaluates by kernel
reduction; it agrees with String.splitOn "/" and String.intercalate "/".
-/

deriving instance DecidableEq for Except

namespace Skillpack

/-! ## String helpers (slash splitting and joining, byte-lexicographic order) -/

/-- Split a character list at every slash (String.splitOn "/" on the
underlying data; a single separator character, so the two agree). -/
def splitSlashCL : List Char → List (List Char)
  | [] => [[]]
  | c :: rest =>
    if c = '/' then [] :: splitSlashCL rest
    else
      match splitSlashCL rest with
      | [] => [[c]]
      | s :: ss => (c :: s) :: ss

/-- Rust str::split on a slash, as a list of strings. -/
def splitSlash (s : String) : List String :=
  (splitSlashCL s.data).map String.mk

/-- Join strings with a separator (Rust Vec::join / String.intercalate). -/
def joinSep (sep : String) : List String → String
  | [] => ""
  | [s] => s
  | s :: rest => String.mk (s.data ++ (sep.data ++ (joinSep sep rest).data))

/-- Join strings with a slash (String.intercalate "/"). -/
def joinSlash (l : List String) : String := joinSep "/" l

/-- Lexicographic order on character lists by code point: this is the order
Rust String::cmp induces (UTF-8 byte order coincides with code-point
order). -/
def clLe : List Char → List Char → Bool
  | [], _ => true
  | _ :: _, [] => false
  | a :: as, b :: bs => a < b || (a == b && clLe as bs)

/-- Rust String::le for sorting of rendered paths and ids. -/
def strLe (a b : String) : Bool := clLe a.data b.data

/-- Stable insertion of an element into a sorted list (the unique stable-sort
semantics of Rust slice::sort and slice::sort_by). -/
def insLe {α : Type} (le : α → α → Bool) (a : α) : List α → List α
  | [] => [a]
  | b :: bs => if le a b then a :: b :: bs else b :: insLe le a bs

/-- Stable sort by a boolean comparison: Rust Vec::sort_by (a stable sort; any
two stable sorts with the same comparison agree extensionally, so insertion
sort embeds it faithfully). -/
def sortByLe {α : Type} (le : α → α → Bool) : List α → List α
  | [] => []
  | a :: as => insLe le a (sortByLe le as)

/-- A filesystem path, as its list of components (Rust Path components). -/
abbrev FPath := List String

/-- Rust Path::display().to_string() for a component list: components joined
with a slash (Unix separator); an absolute path is a component list whose
first component is empty. -/
def pathToString (p : FPath) : String := joinSlash p

/-- PathBuf::from on a rendered path: split on the separator, recovering the
component list (faithful whenever no component contains a slash). -/
def parsePath (s : String) : FPath := splitSlash s

/-! ## patterns.rs -/

/-- Rust seg.contains("**"): the character list holds two adjacent stars. -/
def containsStarStar : List Char → Bool
  | [] => false
  | c :: rest => (c == '*' && rest.head? == some '*') || containsStarStar rest

/-- patterns.rs is_valid_pattern: a pattern is rejected when it is empty, when
a slash-separated segment is empty, or when a segment mixes a doubled star
with other characters. -/
def is_valid_pattern (pattern : String) : Bool :=
  if pattern == "" then false
  else (splitSlash pattern).all fun seg =>
    if seg == "" then false
    else if containsStarStar seg.data && seg != "**" then false
    else true

/-- One glob segment against one id segment: a star matches any run of
characters inside the segment (globset ZeroOrMore with literal_separator), all
other characters are literal (build_glob escapes every other special
character).  A star consuming a run of characters is expressed as matching the
rest of the pattern against some suffix of the text. -/
def segMatch : List Char → List Char → Bool
  | [], ts => ts.isEmpty
  | '*' :: ps, ts => ts.tails.any fun ts₂ => segMatch ps ts₂
  | _ :: _, [] => false
  | p :: ps, t :: ts => p == t && segMatch ps ts

/-- Segment-list glob matching, modelling globset tokens for a pattern whose
doubled stars stand alone in their segments: a leading or middle doubled-star
segment consumes zero or more whole id segments (RecursivePrefix and
RecursiveZeroOrMore), a trailing one requires at least one further id segment
(RecursiveSuffix). -/
def matchSegs : List String → List String → Bool
  | [], ts => ts.isEmpty
  | p :: ps, ts =>
    if p == "**" then
      if ps.isEmpty then !ts.isEmpty
      else ts.tails.any fun ts₂ => matchSegs ps ts₂
    else
      match ts with
      | [] => false
      | t :: ts₂ => segMatch p.data t.data && matchSegs ps ts₂

/-- build_glob on a full pattern: globset treats the glob consisting of a
single doubled-star segment as matching everything. -/
def globMatch (pattern text : String) : Bool :=
  let ps := splitSlash pattern
  if ps == ["**"] then true else matchSegs ps (splitSlash text)

/-- Remove the maximal trailing run of doubled-star segments (may return the
empty list when every segment is a doubled star). -/
def stripTrailGlobs : List String → List String
  | [] => []
  | s :: rest =>
    match stripTrailGlobs rest with
    | [] => if s == "**" then [] else [s]
    | r => s :: r

/-- Rust str::trim_end_matches("/**") in segment form: repeatedly drop a
trailing doubled-star segment while at least one other segment remains; a
pattern made only of doubled-star segments keeps its first one. -/
def trimTrailingGlobs (segs : List String) : List String :=
  match stripTrailGlobs segs with
  | [] => if segs.isEmpty then [] else ["**"]
  | r => r

/-- patterns.rs trailing_prefix_glob: when the pattern ends in a
slash-doubled-star suffix, the pattern with every such suffix stripped is
compiled as an extra glob (none when the remainder is empty). -/
def trailingPre (pattern : String) : Option String :=
  let segs := splitSlash pattern
  if 2 ≤ segs.length ∧ segs.getLast? = some "**" then
    let pre := joinSlash (trimTrailingGlobs segs)
    if pre == "" then none else some pre
  else none

/-- patterns.rs PatternMatcher::is_match: the primary glob, or the trailing
prefix glob when present. -/
def patMatch (pattern text : String) : Bool :=
  globMatch pattern text ||
    (match trailingPre pattern with
     | some pre => globMatch pre text
     | none => false)

/-- patterns.rs match_pattern: reject invalid patterns, then evaluate the
compiled matcher. -/
def match_pattern (pattern text : String) : Bool :=
  if !is_valid_pattern pattern then false
  else patMatch pattern text

/-- The error cases of the embedded fallible operations, mirroring the eyre /
CliError messages constructed in the sources (§7 of the spec).  walkFailed is
the error a WalkDir iteration yields when its root does not exist, copyFailed
the same condition inside copy_skill_dir, ioMissing a read of an absent
manifest file. -/
inductive Err where
  | invalidPattern (pattern : String)
  | patternMatchedNothing (label : String) (pattern : String)
  | nameCollision (name : String)
  | skillsRootMissing (path : String)
  | rootManifestInvalid
  | skillDirNotDir (path : String)
  | walkFailed (path : String)
  | copyFailed (path : String)
  | ioMissing (path : String)
  | notOwned (path : String)
  | packNotInstalled
  | outsideSink (path : String)
  deriving DecidableEq, Repr

/-- patterns.rs PatternSet::new: validate every pattern, failing on the first
invalid one. -/
def patternSetNew (patterns : List String) : Except Err (List String) :=
  match patterns.find? (fun p => !is_valid_pattern p) with
  | some p => .error (.invalidPattern p)
  | none => .ok patterns

/-- patterns.rs PatternSet::is_match: the union of every pattern's primary and
trailing-prefix globs matches the text. -/
def psIsMatch (patterns : List String) (text : String) : Bool :=
  patterns.any fun p => patMatch p text

/-- patterns.rs PatternSet::match_count_per_pattern. -/
def matchCountPerPattern (patterns : List String) (texts : List String) :
    List Nat :=
  patterns.map fun p => (texts.filter fun t => patMatch p t).length

/-! ## discover.rs data model and resolve.rs -/

/-- discover.rs Skill. -/
structure Skill where
  id : String
  dir : FPath
  deriving DecidableEq, Repr

/-- resolve.rs SkillSource (constructors Local and Remote). -/
inductive SkillSource where
  | localSrc : SkillSource
  | remoteSrc (repo : String) : SkillSource
  deriving DecidableEq, Repr

/-- resolve.rs ResolvedSkill. -/
structure ResolvedSkill where
  id : String
  dir : FPath
  source : SkillSource
  deriving DecidableEq, Repr

/-- pack.rs ImportSpec; the include and exclude pattern lists are the fields
named include and exclude in the source (renamed, include is a Lean
keyword). -/
structure ImportSpec where
  repo : String
  ref_name : Option String
  inc : List String
  exc : Option (List String)
  deriving DecidableEq, Repr

/-- pack.rs Pack after load_pack's defaulting; installBase, installSep and
installFlatten are the source fields install_prefix, install_sep and
install_flatten. -/
structure Pack where
  name : String
  inc : List String
  exc : List String
  imports : List ImportSpec
  installBase : String
  installSep : String
  installFlatten : Bool
  deriving DecidableEq, Repr

/-- resolve.rs ResolvedImport. -/
structure ResolvedImport where
  repo : String
  ref_name : Option String
  commit : String
  skills : List ResolvedSkill
  deriving DecidableEq, Repr

/-- resolve.rs ResolvedPack; locals is the source field named local (a Lean
keyword). -/
structure ResolvedPack where
  pack : Pack
  pack_file : FPath
  locals : List ResolvedSkill
  imports : List ResolvedImport
  final_skills : List ResolvedSkill
  deriving DecidableEq, Repr

/-- resolve.rs select_included: validate the include patterns, fail on the
first pattern matching zero of the discovered ids, then keep the matching
skills sorted by id (Vec::sort_by, a stable sort). -/
def select_included (skills : List Skill) (inc : List String) (label : String) :
    Except Err (List Skill) := do
  let pats ← patternSetNew inc
  match (pats.zip (matchCountPerPattern pats (skills.map fun s => s.id))).find?
      (fun pc => pc.2 == 0) with
  | some pc => .error (.patternMatchedNothing label pc.1)
  | none =>
    .ok (sortByLe (fun a b => strLe a.id b.id)
          (skills.filter fun s => psIsMatch pats s.id))

/-- resolve.rs apply_excludes: with no exclude patterns the input is returned
unchanged; otherwise the excluded ids are dropped and the rest re-sorted by
id.  The label only feeds debug logging. -/
def apply_excludes (skills : List ResolvedSkill) (exc : List String)
    (_label : String) : Except Err (List ResolvedSkill) :=
  if exc.isEmpty then .ok skills
  else do
    let pats ← patternSetNew exc
    .ok (sortByLe (fun a b => strLe a.id b.id)
          (skills.filter fun s => !psIsMatch pats s.id))

/-- util.rs flatten_id: replace every slash in the id with the separator. -/
def flatten_id (id : String) (sep : String) : String :=
  joinSep sep (splitSlash id)

/-- Modelled from the spec: crate::util::install_name (with a flatten flag) is
called by resolve.rs detect_collisions and by cli.rs but its definition is
absent from the provided sources (util.rs only has flatten_id).  Per the spec,
the install name is prefix + sep + the id with every slash replaced by sep
when flatten is enabled, and the hierarchical id is kept when flatten is
disabled. -/
def util_install_name (base sep id : String) (flatten : Bool) : String :=
  if flatten then base ++ sep ++ flatten_id id sep
  else base ++ sep ++ id

/-- resolve.rs detect_collisions walked with the set of names already seen
(HashSet::insert returning false exactly when the name repeats). -/
def detectCollisionsAux (skills : List ResolvedSkill) (base sep : String)
    (flatten : Bool) (seen : List String) : Except Err Unit :=
  match skills with
  | [] => .ok ()
  | s :: rest =>
    let name := util_install_name base sep s.id flatten
    if seen.contains name then .error (.nameCollision name)
    else detectCollisionsAux rest base sep flatten (name :: seen)

/-- resolve.rs detect_collisions. -/
def detect_collisions (skills : List ResolvedSkill) (base sep : String)
    (flatten : Bool) : Except Err Unit :=
  detectCollisionsAux skills base sep flatten []

/-- The filesystem, cache and subprocess environment resolve_pack runs
against: what load_pack returns for the pack path, what
discover_local_skills returns for the repository root, and, per import, what
resolve_repo followed by discover_remote_skills return (the pinned commit and
the skills discovered on the checkout). -/
structure REnv where
  packFile : FPath
  pack : Except Err Pack
  localSkills : Except Err (List Skill)
  repoSkills : ImportSpec → Except Err (String × List Skill)

/-- A Rust for-loop that pushes one fallible result per element, stopping at
the first failure (the shape of the import loop in resolve_pack). -/
def mapMExcept {α β : Type} (f : α → Except Err β) : List α → Except Err (List β)
  | [] => .ok []
  | a :: as => do
    let b ← f a
    let bs ← mapMExcept f as
    .ok (b :: bs)

/-- resolve.rs resolve_import: pin the repository, discover its skills, select
the import's includes, tag the provenance and apply the import's excludes. -/
def resolveImport (env : REnv) (imp : ImportSpec) : Except Err ResolvedImport := do
  let cs ← env.repoSkills imp
  let selected ← select_included cs.2 imp.inc "import include"
  let tagged := selected.map fun s => ResolvedSkill.mk s.id s.dir (.remoteSrc imp.repo)
  let final ← apply_excludes tagged (imp.exc.getD []) "import exclude"
  .ok (ResolvedImport.mk imp.repo imp.ref_name cs.1 final)

/-- resolve.rs resolve_pack: load the pack, discover and select local skills,
resolve each import in order, union local and import skills, and apply the
pack-level excludes. -/
def resolve_pack (env : REnv) : Except Err ResolvedPack := do
  let pack ← env.pack
  let locals ← env.localSkills
  let localSel ← select_included locals pack.inc "local include"
  let importResults ← mapMExcept (resolveImport env) pack.imports
  let finals ← apply_excludes
    ((localSel.map fun s => ResolvedSkill.mk s.id s.dir .localSrc) ++
      (importResults.map (·.skills)).flatten) pack.exc "pack exclude"
  .ok (ResolvedPack.mk pack env.packFile
    (localSel.map fun s => ResolvedSkill.mk s.id s.dir .localSrc)
    importResults finals)

/-! ## The filesystem model

The filesystem is a pair of path sets (kept as lists): directories and regular
files with contents.  There are no symbolic links in the model, so the
symlink-consistency branch of discover.rs and the link dereferencing of
copy_skill_dir are vacuous.  A WalkDir whose root does not exist yields an
error entry, which the source propagates. -/

structure Fs where
  dirs : List FPath
  files : List (FPath × String)
  deriving DecidableEq, Repr

/-- Rust Path::exists (any entry at the path). -/
def existsP (fs : Fs) (p : FPath) : Bool :=
  fs.dirs.contains p || fs.files.any fun qc => qc.1 == p

/-- Every nonempty prefix of a component list, shortest first. -/
def prefixesOf (p : FPath) : List FPath :=
  (List.range p.length).map fun n => p.take (n + 1)

/-- std::fs::create_dir_all: the path and all its ancestors become
directories. -/
def createDirAll (fs : Fs) (p : FPath) : Fs :=
  { fs with
    dirs := fs.dirs ++ (prefixesOf p).filter fun q => !fs.dirs.contains q }

/-- std::fs::remove_dir_all: drop the whole subtree at the path. -/
def removeDirAll (fs : Fs) (p : FPath) : Fs :=
  { dirs := fs.dirs.filter fun q => !p.isPrefixOf q
    files := fs.files.filter fun qc => !p.isPrefixOf qc.1 }

/-- Write a file, replacing any previous entry at the path. -/
def addFile (fs : Fs) (p : FPath) (c : String) : Fs :=
  { fs with files := (fs.files.filter fun qc => qc.1 != p) ++ [(p, c)] }

/-- install.rs copy_skill_dir: walk the source tree (an error when the source
does not exist), recreate its directories below the destination and copy every
file, creating parents first. -/
def copySkillDir (fs0 : Fs) (src dest : FPath) : Except Err Fs :=
  if !existsP fs0 src then .error (.copyFailed (pathToString src))
  else
    let fs1 := createDirAll fs0 dest
    let srcDirs := fs0.dirs.filter fun q => src.isPrefixOf q && q != src
    let fs2 := srcDirs.foldl (fun acc q => createDirAll acc (dest ++ q.drop src.length)) fs1
    let srcFiles := fs0.files.filter fun qc => src.isPrefixOf qc.1 && qc.1 != src
    let fs3 := srcFiles.foldl
      (fun acc qc =>
        let dp := dest ++ qc.1.drop src.length
        addFile (createDirAll acc dp.dropLast) dp qc.2)
      fs2
    .ok fs3

/-! ## state.rs -/

/-- state.rs ImportRecord. -/
structure ImportRecord where
  repo : String
  ref_name : Option String
  commit : String
  deriving DecidableEq, Repr, Inhabited

/-- state.rs InstallRecord; base is the source field named prefix. -/
structure InstallRecord where
  sink : String
  sink_path : String
  pack : String
  pack_file : String
  base : String
  sep : String
  flatten : Bool
  imports : List ImportRecord
  installed_paths : List String
  installed_at : String
  deriving DecidableEq, Repr, Inhabited

/-- state.rs StateFile. -/
structure StateFile where
  version : Nat
  installs : List InstallRecord
  deriving DecidableEq, Repr, Inhabited

/-- state.rs find_record_index: position of the first record whose rendered
sink path and pack name match. -/
def find_record_index (state : StateFile) (sinkPath : FPath) (pack : String) :
    Option Nat :=
  let sp := pathToString sinkPath
  state.installs.findIdx? fun r => r.sink_path == sp && r.pack == pack

/-- state.rs record_owned_path: the first matching record, if any, lists the
rendered destination among its installed paths. -/
def record_owned_path (state : StateFile) (sinkPath : FPath) (pack : String)
    (dest : FPath) : Bool :=
  let sp := pathToString sinkPath
  let d := pathToString dest
  match state.installs.find? (fun r => r.sink_path == sp && r.pack == pack) with
  | some r => r.installed_paths.contains d
  | none => false

/-- util.rs ensure_child_path: Path::starts_with is component-wise prefix. -/
def ensure_child_path (root candidate : FPath) : Except Err Unit :=
  if root.isPrefixOf candidate then .ok ()
  else .error (.outsideSink (pathToString candidate))

/-! ## install.rs -/

/-- install.rs install_name: the destination name always flattens the id (the
function takes no flatten flag). -/
def install_name (base sep id : String) : String :=
  base ++ sep ++ flatten_id id sep

/-- install.rs build_install_paths: rendered destinations of every final
skill, sorted as strings. -/
def build_install_paths (skills : List ResolvedSkill) (sinkPath : FPath)
    (base sep : String) : List String :=
  sortByLe strLe
    (skills.map fun s => pathToString (sinkPath ++ parsePath (install_name base sep s.id)))

/-- The stale-path phase of install_pack: for every previously recorded path
that is not among the new ones, check containment in the sink, then remove it
when it exists.  Returns the filesystem as mutated so far and the first
error. -/
def removeStale (sinkPath : FPath) (newPaths : List String) :
    List String → Fs → Fs × Option Err
  | [], fs => (fs, none)
  | old :: rest, fs =>
    if newPaths.contains old then removeStale sinkPath newPaths rest fs
    else if sinkPath.isPrefixOf (parsePath old) then
      removeStale sinkPath newPaths rest
        (if existsP fs (parsePath old) then removeDirAll fs (parsePath old)
         else fs)
    else (fs, some (.outsideSink old))

/-- The per-skill phase of install_pack: an existing destination must be owned
by this pack's record, is then removed, and the skill directory is copied into
place. -/
def installSkills (base sep : String) (sinkPath : FPath) (state : StateFile)
    (packName : String) : List ResolvedSkill → Fs → Fs × Option Err
  | [], fs => (fs, none)
  | skill :: rest, fs =>
    if existsP fs (sinkPath ++ parsePath (install_name base sep skill.id)) then
      if !record_owned_path state sinkPath packName
          (sinkPath ++ parsePath (install_name base sep skill.id)) then
        (fs, some (.notOwned (pathToString
          (sinkPath ++ parsePath (install_name base sep skill.id)))))
      else
        match ensure_child_path sinkPath
            (sinkPath ++ parsePath (install_name base sep skill.id)) with
        | .error e => (fs, some e)
        | .ok _ =>
          match copySkillDir
              (removeDirAll fs (sinkPath ++ parsePath (install_name base sep skill.id)))
              skill.dir (sinkPath ++ parsePath (install_name base sep skill.id)) with
          | .error e =>
            (removeDirAll fs (sinkPath ++ parsePath (install_name base sep skill.id)),
             some e)
          | .ok fs₂ => installSkills base sep sinkPath state packName rest fs₂
    else
      match copySkillDir fs skill.dir
          (sinkPath ++ parsePath (install_name base sep skill.id)) with
      | .error e => (fs, some e)
      | .ok fs₂ => installSkills base sep sinkPath state packName rest fs₂

/-- The stale-path step of install_pack: when a record for (sink_path, pack)
exists, remove its recorded paths that are not among the new ones. -/
def stalePhase (state : StateFile) (sinkPath : FPath) (packName : String)
    (newPaths : List String) (fs : Fs) : Fs × Option Err :=
  match find_record_index state sinkPath packName with
  | some idx =>
    removeStale sinkPath newPaths
      ((state.installs.getD idx default).installed_paths) fs
  | none => (fs, none)

/-- The InstallRecord install_pack persists on success.  The record
construction in the source omits the flatten field of state.rs InstallRecord;
the embedding uses the serde default (false). -/
def mkInstallRecord (resolved : ResolvedPack) (sink : String)
    (sinkPath : FPath) (now : String) : InstallRecord :=
  { sink := sink
    sink_path := pathToString sinkPath
    pack := resolved.pack.name
    pack_file := pathToString resolved.pack_file
    base := resolved.pack.installBase
    sep := resolved.pack.installSep
    flatten := false
    imports := resolved.imports.map fun i =>
      ImportRecord.mk i.repo i.ref_name i.commit
    installed_paths := build_install_paths resolved.final_skills sinkPath
      resolved.pack.installBase resolved.pack.installSep
    installed_at := now }

/-- install.rs install_pack.  now is the timestamp now_rfc3339 returns.  The
filesystem is returned alongside the result because the source mutates it
before a failure can surface; the state is only mutated on success, as in the
source. -/
def install_pack (resolved : ResolvedPack) (sink : String) (sinkPath : FPath)
    (state : StateFile) (fs0 : Fs) (now : String) :
    Fs × StateFile × Except Err InstallRecord :=
  match stalePhase state sinkPath resolved.pack.name
      (build_install_paths resolved.final_skills sinkPath
        resolved.pack.installBase resolved.pack.installSep)
      (createDirAll fs0 sinkPath) with
  | (fs₂, some e) => (fs₂, state, .error e)
  | (fs₂, none) =>
    match installSkills resolved.pack.installBase resolved.pack.installSep
        sinkPath state resolved.pack.name resolved.final_skills fs₂ with
    | (fs₃, some e) => (fs₃, state, .error e)
    | (fs₃, none) =>
      (fs₃,
       (match find_record_index state sinkPath resolved.pack.name with
        | some idx =>
          StateFile.mk state.version
            (state.installs.set idx (mkInstallRecord resolved sink sinkPath now))
        | none =>
          StateFile.mk state.version
            (state.installs ++ [mkInstallRecord resolved sink sinkPath now])),
       .ok (mkInstallRecord resolved sink sinkPath now))

/-- The removal loop of uninstall_pack: containment check first, then remove
the recorded path when it still exists. -/
def removeRecorded (sinkPath : FPath) :
    List String → Fs → Fs × Option Err
  | [], fs => (fs, none)
  | p :: rest, fs =>
    if sinkPath.isPrefixOf (parsePath p) then
      removeRecorded sinkPath rest
        (if existsP fs (parsePath p) then removeDirAll fs (parsePath p) else fs)
    else (fs, some (.outsideSink p))

/-- install.rs uninstall_pack: locate the record (PackNotInstalled when
absent), remove it from the state, then delete every recorded path that still
exists, refusing paths outside the sink. -/
def uninstall_pack (state : StateFile) (sinkPath : FPath) (pack : String)
    (fs : Fs) : Fs × StateFile × Except Err InstallRecord :=
  match find_record_index state sinkPath pack with
  | none => (fs, state, .error .packNotInstalled)
  | some idx =>
    let record := state.installs.getD idx default
    let state₂ := { state with installs := state.installs.eraseIdx idx }
    match removeRecorded sinkPath record.installed_paths fs with
    | (fs₂, some e) => (fs₂, state₂, .error e)
    | (fs₂, none) => (fs₂, state₂, .ok record)

/-! ## discover.rs -/

/-- The walk order of the model: rendered-path lexicographic (walkdir's order
is platform-dependent; downstream consumers re-sort by id, so the choice is
observationally irrelevant there). -/
def sortPaths (l : List FPath) : List FPath :=
  sortByLe (fun a b => strLe (pathToString a) (pathToString b)) l

/-- The collection loop of discover_skills: for every manifest file found, a
manifest directly at the root is an error for local discovery and skipped for
remote discovery; otherwise the parent directory relative to the root is a
candidate skill directory. -/
def collectCandidates (root : FPath) (isLocal : Bool) :
    List FPath → Except Err (List FPath)
  | [] => .ok []
  | c :: rest =>
    let parent := c.dropLast
    if parent == root then
      if isLocal then .error .rootManifestInvalid
      else collectCandidates root isLocal rest
    else
      let rel := parent.drop root.length
      if rel.isEmpty then collectCandidates root isLocal rest
      else do
        let rs ← collectCandidates root isLocal rest
        .ok (rel :: rs)

/-- The proper nonempty ancestors of a relative directory (dir.ancestors()
skipping the directory itself and stopping at the empty path). -/
def properAncestors (rel : FPath) : List FPath :=
  (List.range (rel.length - 1)).map fun n => rel.take (n + 1)

/-- The output loop of discover_skills: drop candidates that contain another
candidate, render the id, and require the directory to exist as a
directory. -/
def buildSkills (fs : Fs) (root : FPath) (nonLeaf : List FPath) :
    List FPath → Except Err (List Skill)
  | [] => .ok []
  | rel :: rest =>
    if nonLeaf.contains rel then buildSkills fs root nonLeaf rest
    else
      let dir := root ++ rel
      if !fs.dirs.contains dir then .error (.skillDirNotDir (pathToString dir))
      else do
        let rs ← buildSkills fs root nonLeaf rest
        .ok (Skill.mk (joinSlash rel) dir :: rs)

/-- discover.rs discover_skills: walk the root (an error when it does not
exist), collect the parent directory of every file named SKILL.md, drop
non-leaf candidates, and build the skill list.  In the model every manifest
read succeeds and there are no symbolic links. -/
def discover_skills (fs : Fs) (root : FPath) (isLocal : Bool) :
    Except Err (List Skill) := do
  if !existsP fs root then .error (.walkFailed (pathToString root))
  else
    let manifests := sortPaths ((fs.files.map (·.1)).filter fun p =>
      root.isPrefixOf p && p != root && p.getLast? == some "SKILL.md")
    let skillDirs ← collectCandidates root isLocal manifests
    let nonLeaf := skillDirs.flatMap properAncestors
    buildSkills fs root nonLeaf skillDirs

/-- discover.rs discover_local_skills: the skills directory under the
repository root must exist, else SkillsRootMissing. -/
def discover_local_skills (fs : Fs) (repoRoot : FPath) :
    Except Err (List Skill) :=
  let skillsRoot := repoRoot ++ ["skills"]
  if !existsP fs skillsRoot then
    .error (.skillsRootMissing (pathToString skillsRoot))
  else discover_skills fs skillsRoot true

/-- discover.rs discover_remote_skills: no existence check, the walk is
attempted directly. -/
def discover_remote_skills (fs : Fs) (root : FPath) : Except Err (List Skill) :=
  discover_skills fs root false

/-! ## Spec-side predicates and concrete inputs used by claims -/

/-- The spec's characterization of an invalid pattern, written independently
of the implementation: empty, or some slash-separated segment is empty, or
some segment contains a doubled star together with other characters. -/
def specPatternInvalid (p : String) : Prop :=
  p = "" ∨ ∃ seg ∈ splitSlash p, seg = "" ∨
    ((∃ pre post, seg.data = pre ++ '*' :: '*' :: post) ∧ seg ≠ "**")

/-- An import of repository r selecting every skill. -/
def impC1 : ImportSpec := ImportSpec.mk "r" none ["**"] none

/-- A pack taking local skill b and importing everything from r. -/
def envC1 : REnv :=
  { packFile := ["", "p", "demo.yaml"]
    pack := .ok (Pack.mk "demo" ["b"] [] [impC1] "demo" "__" false)
    localSkills := .ok [Skill.mk "b" ["", "l", "skills", "b"]]
    repoSkills := fun _ =>
      .ok ("c0", [Skill.mk "a" ["", "c", "a"], Skill.mk "b" ["", "c", "b"]]) }

/-- The resolution envC1 produces: the union is not deduplicated by id and,
with an empty exclude list, not re-sorted. -/
def rpC1 : ResolvedPack :=
  ResolvedPack.mk (Pack.mk "demo" ["b"] [] [impC1] "demo" "__" false)
    ["", "p", "demo.yaml"]
    [ResolvedSkill.mk "b" ["", "l", "skills", "b"] SkillSource.localSrc]
    [ResolvedImport.mk "r" none "c0"
      [ResolvedSkill.mk "a" ["", "c", "a"] (SkillSource.remoteSrc "r"),
       ResolvedSkill.mk "b" ["", "c", "b"] (SkillSource.remoteSrc "r")]]
    [ResolvedSkill.mk "b" ["", "l", "skills", "b"] SkillSource.localSrc,
     ResolvedSkill.mk "a" ["", "c", "a"] (SkillSource.remoteSrc "r"),
     ResolvedSkill.mk "b" ["", "c", "b"] (SkillSource.remoteSrc "r")]

/-- A pack whose include list pairs a matching pattern with one that matches
nothing. -/
def envC6 : REnv :=
  { packFile := ["", "p", "demo.yaml"]
    pack := .ok (Pack.mk "demo" ["missing/**", "alpha"] [] [] "demo" "__" false)
    localSkills := .ok [Skill.mk "alpha" ["", "l", "skills", "alpha"]]
    repoSkills := fun _ => .error .packNotInstalled }

/-- An import whose include pattern matches none of the remote skills. -/
def impC6 : ImportSpec := ImportSpec.mk "r" none ["missing/**"] none

/-- A pack whose local include matches but whose import's include matches
nothing. -/
def envC6b : REnv :=
  { packFile := ["", "p", "demo.yaml"]
    pack := .ok (Pack.mk "demo" ["alpha"] [] [impC6] "demo" "__" false)
    localSkills := .ok [Skill.mk "alpha" ["", "l", "skills", "alpha"]]
    repoSkills := fun _ => .ok ("c1", [Skill.mk "beta" ["", "c", "beta"]]) }

/-- The entries of the filesystem lying at or below a path: the observable
a destination-ownership safety statement speaks about ("neither deleted nor
modified"). -/
def subtree (fs : Fs) (p : FPath) : List FPath × List (FPath × String) :=
  (fs.dirs.filter fun q => p.isPrefixOf q,
   fs.files.filter fun qc => p.isPrefixOf qc.1)

/-- Extract the success value of an embedded operation (default on error). -/
def okOr {α : Type} [Inhabited α] : Except Err α → α
  | .ok a => a
  | .error _ => default

/-- The pack used by the reconciliation and idempotence scenarios: one local
skill named new, default naming. -/
def packC5 : Pack := Pack.mk "demo" ["new"] [] [] "demo" "__" false

/-- The resolution of packC5 with the skill content at dir. -/
def resolvedC5 (dir : FPath) : ResolvedPack :=
  ResolvedPack.mk packC5 ["", "p", "demo.yaml"]
    [ResolvedSkill.mk "new" dir SkillSource.localSrc] []
    [ResolvedSkill.mk "new" dir SkillSource.localSrc]

/-- A state that records demo as owning sink/demo__old in sink /s. -/
def stC5 : StateFile :=
  StateFile.mk 1
    [InstallRecord.mk "codex" "/s" "demo" "/p/demo.yaml" "demo" "__" false []
      ["/s/demo__old"] "t"]

/-- A filesystem with the sink containing the stale demo__old and the skill
content outside the sink. -/
def fsC5 : Fs :=
  Fs.mk [[""], ["", "s"], ["", "s", "demo__old"], ["", "skill"]]
    [(["", "skill", "SKILL.md"], "x")]

/-- A resolution of a pack with the single skill a/b (flatten disabled in the
pack), used by the install-name and ownership scenarios. -/
def rpC4 : ResolvedPack :=
  ResolvedPack.mk (Pack.mk "demo" [] [] [] "demo" "__" false)
    ["", "p", "demo.yaml"] [] []
    [ResolvedSkill.mk "a/b" ["", "skill"] SkillSource.localSrc]

/-- A sink already containing demo__a__b, owned by nobody. -/
def fsC4 : Fs :=
  Fs.mk [[""], ["", "s"], ["", "s", "demo__a__b"], ["", "skill"]]
    [(["", "skill", "SKILL.md"], "x")]

/-- A fresh sink plus skill content, for the flatten counterexample and the
idempotence witness. -/
def fsC7 : Fs :=
  Fs.mk [[""], ["", "s"], ["", "skill"]] [(["", "skill", "SKILL.md"], "x")]

/-- First install of packC5 into the empty state. -/
def outC7a : Fs × StateFile × Except Err InstallRecord :=
  install_pack (resolvedC5 ["", "skill"]) "codex" ["", "s"] (StateFile.mk 1 [])
    fsC7 "t1"

/-- The record the first install returns. -/
def recC7a : InstallRecord := okOr outC7a.2.2

/-- Install of rpC4 (flatten disabled, skill id a/b) into a fresh sink. -/
def outC2 : Fs × StateFile × Except Err InstallRecord :=
  install_pack rpC4 "codex" ["", "s"] (StateFile.mk 1 []) fsC7 "t"

/-- The record that install returns. -/
def recC2 : InstallRecord := okOr outC2.2.2

/-! ## Supporting lemmas -/

theorem containsStarStar_iff (l : List Char) :
    containsStarStar l = true ↔ ∃ pre post, l = pre ++ '*' :: '*' :: post := by
  induction l with
  | nil =>
    simp only [containsStarStar]
    constructor
    · intro h; exact absurd h (by simp)
    · rintro ⟨pre, post, h⟩; cases pre <;> simp at h
  | cons c rest ih =>
    simp only [containsStarStar, Bool.or_eq_true, Bool.and_eq_true, beq_iff_eq, ih]
    constructor
    · rintro (⟨hc, hh⟩ | ⟨pre, post, h⟩)
      · cases rest with
        | nil => simp at hh
        | cons d ds =>
          simp only [List.head?_cons, Option.some.injEq] at hh
          exact ⟨[], ds, by simp [hc, hh]⟩
      · exact ⟨c :: pre, post, by simp [h]⟩
    · rintro ⟨pre, post, h⟩
      cases pre with
      | nil =>
        simp only [List.nil_append, List.cons.injEq] at h
        left
        exact ⟨h.1, by simp [h.2]⟩
      | cons p pre₂ =>
        simp only [List.cons_append, List.cons.injEq] at h
        exact Or.inr ⟨pre₂, post, h.2⟩

theorem clLe_total (a b : List Char) : clLe a b = true ∨ clLe b a = true := by
  induction a generalizing b with
  | nil => exact Or.inl rfl
  | cons x xs ih =>
    cases b with
    | nil => exact Or.inr rfl
    | cons y ys =>
      rcases lt_trichotomy x y with h | h | h
      · exact Or.inl (by simp [clLe, h])
      · subst h
        rcases ih ys with h2 | h2
        · exact Or.inl (by simp [clLe, h2])
        · exact Or.inr (by simp [clLe, h2])
      · exact Or.inr (by simp [clLe, h])

theorem clLe_trans (a b c : List Char) (h₁ : clLe a b = true)
    (h₂ : clLe b c = true) : clLe a c = true := by
  induction a generalizing b c with
  | nil => rfl
  | cons x xs ih =>
    cases b with
    | nil => simp [clLe] at h₁
    | cons y ys =>
      cases c with
      | nil => simp [clLe] at h₂
      | cons z zs =>
        simp only [clLe, Bool.or_eq_true, Bool.and_eq_true, decide_eq_true_eq,
          beq_iff_eq] at h₁ h₂ ⊢
        rcases h₁ with h₁ | ⟨h₁, h₁t⟩ <;> rcases h₂ with h₂ | ⟨h₂, h₂t⟩
        · exact Or.inl (lt_trans h₁ h₂)
        · exact Or.inl (h₂ ▸ h₁)
        · exact Or.inl (h₁ ▸ h₂)
        · exact Or.inr ⟨h₁.trans h₂, ih ys zs h₁t h₂t⟩

theorem strLe_total (a b : String) : strLe a b = true ∨ strLe b a = true :=
  clLe_total a.data b.data

theorem strLe_trans (a b c : String) (h₁ : strLe a b = true)
    (h₂ : strLe b c = true) : strLe a c = true :=
  clLe_trans a.data b.data c.data h₁ h₂

theorem insLe_perm {α : Type} (le : α → α → Bool) (a : α) (l : List α) :
    (insLe le a l).Perm (a :: l) := by
  induction l with
  | nil => exact List.Perm.refl _
  | cons b bs ih =>
    unfold insLe
    by_cases h : le a b = true
    · rw [if_pos h]
    · rw [if_neg h]
      exact (ih.cons b).trans (List.Perm.swap a b bs)

theorem sortByLe_perm {α : Type} (le : α → α → Bool) (l : List α) :
    (sortByLe le l).Perm l := by
  induction l with
  | nil => exact List.Perm.refl _
  | cons a as ih => exact (insLe_perm le a (sortByLe le as)).trans (ih.cons a)

theorem mem_insLe {α : Type} (le : α → α → Bool) (a x : α) (l : List α) :
    x ∈ insLe le a l ↔ x = a ∨ x ∈ l := by
  rw [(insLe_perm le a l).mem_iff]
  simp

theorem insLe_pairwise {α : Type} (le : α → α → Bool)
    (htot : ∀ a b, le a b = true ∨ le b a = true)
    (htrans : ∀ a b c, le a b = true → le b c = true → le a c = true)
    (a : α) (l : List α) (hl : l.Pairwise fun x y => le x y = true) :
    (insLe le a l).Pairwise fun x y => le x y = true := by
  induction l with
  | nil => simp [insLe]
  | cons b bs ih =>
    rcases List.pairwise_cons.mp hl with ⟨hb, hbs⟩
    unfold insLe
    by_cases h : le a b = true
    · rw [if_pos h]
      refine List.pairwise_cons.mpr ⟨?_, hl⟩
      intro x hx
      rcases List.mem_cons.mp hx with rfl | hx
      · exact h
      · exact htrans a b x h (hb x hx)
    · rw [if_neg h]
      refine List.pairwise_cons.mpr ⟨?_, ih hbs⟩
      intro x hx
      rcases (mem_insLe le a x bs).mp hx with rfl | hx
      · rcases htot x b with h2 | h2
        · exact absurd h2 h
        · exact h2
      · exact hb x hx

theorem sortByLe_pairwise {α : Type} (le : α → α → Bool)
    (htot : ∀ a b, le a b = true ∨ le b a = true)
    (htrans : ∀ a b c, le a b = true → le b c = true → le a c = true)
    (l : List α) : (sortByLe le l).Pairwise fun x y => le x y = true := by
  induction l with
  | nil => simp [sortByLe]
  | cons a as ih => exact insLe_pairwise le htot htrans a (sortByLe le as) ih

theorem patternSetNew_ok_of_valid (pats : List String)
    (hv : ∀ q ∈ pats, is_valid_pattern q = true) :
    patternSetNew pats = .ok pats := by
  unfold patternSetNew
  have : pats.find? (fun p => !is_valid_pattern p) = none := by
    rw [List.find?_eq_none]
    intro x hx
    simp [hv x hx]
  rw [this]

theorem psIsMatch_nil (t : String) : psIsMatch [] t = false := rfl

theorem eBind_ok {α β : Type} (x : α) (f : α → Except Err β) :
    (Except.ok x >>= f) = f x := rfl

theorem eBind_error {α β : Type} (e : Err) (f : α → Except Err β) :
    ((Except.error e : Except Err α) >>= f) = Except.error e := rfl

theorem patternSetNew_ok_eq (pats out : List String)
    (h : patternSetNew pats = .ok out) : out = pats := by
  unfold patternSetNew at h
  rcases h2 : pats.find? (fun p => !is_valid_pattern p) with _ | q
  · rw [h2] at h; cases h; rfl
  · rw [h2] at h; cases h

theorem apply_excludes_ok (skills : List ResolvedSkill) (exc : List String)
    (label : String) (out : List ResolvedSkill)
    (h : apply_excludes skills exc label = .ok out) :
    out.Perm (skills.filter fun s => !psIsMatch exc s.id) ∧
    (exc = [] → out = skills) ∧
    (exc ≠ [] → out.Pairwise fun a b => strLe a.id b.id = true) := by
  unfold apply_excludes at h
  by_cases he : exc.isEmpty = true
  · rw [if_pos he] at h
    have hnil : exc = [] := List.isEmpty_iff.mp he
    subst hnil
    cases h
    refine ⟨?_, fun _ => rfl, ?_⟩
    · simp only [psIsMatch_nil, Bool.not_false, List.filter_true]
      exact List.Perm.refl _
    · intro hne; exact absurd rfl hne
  · rw [if_neg he] at h
    cases hf : patternSetNew exc with
    | error e => rw [hf, eBind_error] at h; simp at h
    | ok pats =>
      rw [hf, eBind_ok] at h
      have hpe : pats = exc := patternSetNew_ok_eq exc pats hf
      subst hpe
      cases h
      refine ⟨?_, ?_, ?_⟩
      · exact sortByLe_perm _ _
      · intro hnil
        subst hnil
        exact absurd rfl he
      · intro _
        exact sortByLe_pairwise
          (fun (a b : ResolvedSkill) => strLe a.id b.id)
          (fun a b => strLe_total a.id b.id)
          (fun a b c => strLe_trans a.id b.id c.id) _

theorem resolve_pack_ok (env : REnv) (rp : ResolvedPack)
    (h : resolve_pack env = .ok rp) :
    ∃ pack locals localSel importResults,
      env.pack = .ok pack ∧ env.localSkills = .ok locals ∧
      select_included locals pack.inc "local include" = .ok localSel ∧
      mapMExcept (resolveImport env) pack.imports = .ok importResults ∧
      rp.pack = pack ∧ rp.pack_file = env.packFile ∧
      rp.locals = localSel.map (fun s => ResolvedSkill.mk s.id s.dir .localSrc) ∧
      rp.imports = importResults ∧
      apply_excludes
        (localSel.map (fun s => ResolvedSkill.mk s.id s.dir .localSrc) ++
          (importResults.map (·.skills)).flatten) pack.exc "pack exclude" =
        .ok rp.final_skills := by
  unfold resolve_pack at h
  cases hp : env.pack with
  | error e => rw [hp, eBind_error] at h; simp at h
  | ok pack =>
    rw [hp, eBind_ok] at h
    cases hl : env.localSkills with
    | error e => rw [hl, eBind_error] at h; simp at h
    | ok locals =>
      rw [hl, eBind_ok] at h
      cases hs : select_included locals pack.inc "local include" with
      | error e => rw [hs, eBind_error] at h; simp at h
      | ok localSel =>
        rw [hs, eBind_ok] at h
        cases hm : mapMExcept (resolveImport env) pack.imports with
        | error e => rw [hm, eBind_error] at h; simp at h
        | ok importResults =>
          rw [hm, eBind_ok] at h
          cases ha : apply_excludes
              (localSel.map (fun s => ResolvedSkill.mk s.id s.dir .localSrc) ++
                (importResults.map (·.skills)).flatten) pack.exc "pack exclude" with
          | error e => rw [ha, eBind_error] at h; simp at h
          | ok finals =>
            rw [ha, eBind_ok] at h
            refine ⟨pack, locals, localSel, importResults, rfl, rfl, hs, hm, ?_⟩
            cases h
            exact ⟨rfl, rfl, rfl, rfl, ha⟩

/-! ## C1: the shape of final_skills -/

/-- C1 counterexample.  A pack whose local selection and an import both
contribute a skill with id b, with an empty exclude list: resolve_pack
succeeds and final_skills is b, a, b — neither deduplicated by id nor sorted
by id, refuting the claim at this input. -/
theorem final_skills_not_deduplicated :
    resolve_pack envC1 = .ok rpC1 ∧
    rpC1.final_skills.map ResolvedSkill.id = ["b", "a", "b"] ∧
    ¬ rpC1.final_skills.Pairwise (fun a b => a.id ≠ b.id) ∧
    ¬ rpC1.final_skills.Pairwise (fun a b => strLe a.id b.id = true) := by
  refine ⟨by decide, by decide, ?_, ?_⟩
  · intro h
    rcases List.pairwise_cons.mp h with ⟨hb, _⟩
    exact hb (rpC1.final_skills.get ⟨2, by decide⟩) (by decide) (by decide)
  · intro h
    rcases List.pairwise_cons.mp h with ⟨hb, _⟩
    have := hb (rpC1.final_skills.get ⟨1, by decide⟩) (by decide)
    revert this
    decide

/-- C1 amended.  Whenever resolve_pack succeeds, final_skills is a permutation
of the exclude-filtered union of the selected local skills and all imports'
skills (multiplicity preserved: duplicate ids from different sources are all
retained); with an empty exclude list it is literally that union, unchanged
(locals first, then imports in order, no filtering, no sorting, no
deduplication); and it is sorted by id whenever the pack's exclude list is
nonempty. -/
theorem final_skills_union_characterization (env : REnv) (rp : ResolvedPack)
    (h : resolve_pack env = .ok rp) :
    rp.final_skills.Perm
      ((rp.locals ++ (rp.imports.map (·.skills)).flatten).filter
        fun s => !psIsMatch rp.pack.exc s.id) ∧
    (rp.pack.exc = [] →
      rp.final_skills = rp.locals ++ (rp.imports.map (·.skills)).flatten) ∧
    (rp.pack.exc ≠ [] →
      rp.final_skills.Pairwise fun a b => strLe a.id b.id = true) := by
  obtain ⟨pack, locals, localSel, importResults, _, _, _, _, hpk, _, hloc, himp, ha⟩ :=
    resolve_pack_ok env rp h
  rw [hpk, hloc, himp]
  exact apply_excludes_ok _ _ _ _ ha

/-- C1 amended, witness at envC1 (exclude list empty: the permutation part and
the exact empty-exclude equality are exercised; the sortedness implication
holds vacuously). -/
theorem final_skills_union_characterization_witness :
    rpC1.final_skills.Perm
      ((rpC1.locals ++ (rpC1.imports.map (·.skills)).flatten).filter
        fun s => !psIsMatch rpC1.pack.exc s.id) ∧
    (rpC1.pack.exc = [] →
      rpC1.final_skills = rpC1.locals ++ (rpC1.imports.map (·.skills)).flatten) ∧
    (rpC1.pack.exc ≠ [] →
      rpC1.final_skills.Pairwise fun a b => strLe a.id b.id = true) :=
  final_skills_union_characterization envC1 rpC1 (by decide)

theorem zip_self_map {α β : Type} (l : List α) (g : α → β) :
    l.zip (l.map g) = l.map fun a => (a, g a) := by
  induction l with
  | nil => rfl
  | cons a as ih => simp [ih]

theorem select_included_error_of_zero (skills : List Skill) (inc : List String)
    (label : String)
    (hv : ∀ q ∈ inc, is_valid_pattern q = true)
    (p : String) (hmem : p ∈ inc)
    (hz : ((skills.map fun s => s.id).filter fun t => patMatch p t) = []) :
    ∃ q ∈ inc, ((skills.map fun s => s.id).filter fun t => patMatch q t) = [] ∧
      select_included skills inc label = .error (.patternMatchedNothing label q) := by
  have hps := patternSetNew_ok_of_valid inc hv
  unfold select_included
  rw [hps, eBind_ok]
  have hzip : inc.zip (matchCountPerPattern inc (skills.map fun s => s.id)) =
      inc.map fun a =>
        (a, ((skills.map fun s => s.id).filter fun t => patMatch a t).length) := by
    unfold matchCountPerPattern
    exact zip_self_map inc _
  rw [hzip, List.find?_map]
  have hsome : (inc.find? fun a =>
      (((skills.map fun s => s.id).filter fun t => patMatch a t).length == 0)).isSome := by
    rw [List.find?_isSome]
    exact ⟨p, hmem, by simp [hz]⟩
  obtain ⟨q, hq⟩ := Option.isSome_iff_exists.mp hsome
  have hmemq : q ∈ inc := List.mem_of_find?_eq_some hq
  have hzq : ((skills.map fun s => s.id).filter fun t => patMatch q t) = [] := by
    have hlen := List.find?_some hq
    exact List.length_eq_zero.mp (by simpa using hlen)
  have hcomp : (inc.find? ((fun pc : String × Nat => pc.2 == 0) ∘ fun a =>
      (a, ((skills.map fun s => s.id).filter fun t => patMatch a t).length))) =
      inc.find? fun a =>
        (((skills.map fun s => s.id).filter fun t => patMatch a t).length == 0) := rfl
  rw [hcomp, hq]
  exact ⟨q, hmemq, hzq, rfl⟩

theorem resolveImport_error_of_select (env : REnv) (imp : ImportSpec)
    (commit : String) (rskills : List Skill)
    (hrs : env.repoSkills imp = .ok (commit, rskills)) (e : Err)
    (hsel : select_included rskills imp.inc "import include" = .error e) :
    resolveImport env imp = .error e := by
  unfold resolveImport
  rw [hrs, eBind_ok]
  have : (commit, rskills).2 = rskills := rfl
  rw [this, hsel, eBind_error]

theorem mapMExcept_error {α β : Type} (f : α → Except Err β) (pre : List α)
    (imp : α) (post : List α) (e : Err)
    (hpre : ∀ i ∈ pre, ∃ r, f i = .ok r) (himp : f imp = .error e) :
    mapMExcept f (pre ++ imp :: post) = .error e := by
  induction pre with
  | nil =>
    simp only [List.nil_append]
    unfold mapMExcept
    rw [himp, eBind_error]
  | cons a rest ih =>
    obtain ⟨r, hr⟩ := hpre a (List.mem_cons_self a rest)
    have ih₂ := ih fun i hi => hpre i (List.mem_cons_of_mem a hi)
    simp only [List.cons_append]
    unfold mapMExcept
    rw [hr, eBind_ok, ih₂, eBind_error]

/-! ## C6: per-pattern include strictness -/

/-- C6.  resolve_pack fails with the pattern-matched-zero error naming an
offending pattern whenever any single include pattern — local or of any of
the imports — matches zero of the ids discovered for it, even when other
patterns match.  Stated for valid patterns: an invalid pattern is rejected
earlier by PatternSet::new with an invalid-pattern error. -/
theorem include_strictness (env : REnv) (pack : Pack) (locals : List Skill)
    (hp : env.pack = .ok pack) (hl : env.localSkills = .ok locals) :
    ((∀ q ∈ pack.inc, is_valid_pattern q = true) →
      ∀ p ∈ pack.inc,
        ((locals.map fun s => s.id).filter fun t => patMatch p t) = [] →
        ∃ q ∈ pack.inc,
          ((locals.map fun s => s.id).filter fun t => patMatch q t) = [] ∧
          resolve_pack env = .error (.patternMatchedNothing "local include" q)) ∧
    (∀ ls, select_included locals pack.inc "local include" = .ok ls →
      ∀ preI imp postI, pack.imports = preI ++ imp :: postI →
      (∀ i ∈ preI, ∃ r, resolveImport env i = .ok r) →
      ∀ commit rskills, env.repoSkills imp = .ok (commit, rskills) →
      (∀ q ∈ imp.inc, is_valid_pattern q = true) →
      ∀ p ∈ imp.inc,
        ((rskills.map fun s => s.id).filter fun t => patMatch p t) = [] →
        ∃ q ∈ imp.inc,
          ((rskills.map fun s => s.id).filter fun t => patMatch q t) = [] ∧
          resolve_pack env = .error (.patternMatchedNothing "import include" q)) := by
  constructor
  · intro hv p hmem hz
    obtain ⟨q, hqmem, hqz, hqerr⟩ :=
      select_included_error_of_zero locals pack.inc "local include" hv p hmem hz
    refine ⟨q, hqmem, hqz, ?_⟩
    unfold resolve_pack
    rw [hp, eBind_ok, hl, eBind_ok, hqerr, eBind_error]
  · intro ls hls preI imp postI himps hpreok commit rskills hrs hv p hmem hz
    obtain ⟨q, hqmem, hqz, hqerr⟩ :=
      select_included_error_of_zero rskills imp.inc "import include" hv p hmem hz
    have himpErr : resolveImport env imp =
        .error (.patternMatchedNothing "import include" q) :=
      resolveImport_error_of_select env imp commit rskills hrs _ hqerr
    have hmapm : mapMExcept (resolveImport env) pack.imports =
        .error (.patternMatchedNothing "import include" q) := by
      rw [himps]
      exact mapMExcept_error _ preI imp postI _ hpreok himpErr
    refine ⟨q, hqmem, hqz, ?_⟩
    unfold resolve_pack
    rw [hp, eBind_ok, hl, eBind_ok, hls, eBind_ok, hmapm, eBind_error]

/-- C6 witness: a local include pattern matching nothing (next to one that
matches) fails naming it, and an import include pattern matching nothing fails
naming it. -/
theorem include_strictness_witness :
    (∃ q ∈ ["missing/**", "alpha"],
      (((["alpha"] : List String)).filter fun t => patMatch q t) = [] ∧
      resolve_pack envC6 = .error (.patternMatchedNothing "local include" q)) ∧
    (∃ q ∈ ["missing/**"],
      (((["beta"] : List String)).filter fun t => patMatch q t) = [] ∧
      resolve_pack envC6b = .error (.patternMatchedNothing "import include" q)) := by
  constructor
  · exact (include_strictness envC6
      (Pack.mk "demo" ["missing/**", "alpha"] [] [] "demo" "__" false)
      [Skill.mk "alpha" ["", "l", "skills", "alpha"]] rfl rfl).1
      (by decide) "missing/**" (by decide) (by decide)
  · exact (include_strictness envC6b
      (Pack.mk "demo" ["alpha"] [] [impC6] "demo" "__" false)
      [Skill.mk "alpha" ["", "l", "skills", "alpha"]] rfl rfl).2
      [Skill.mk "alpha" ["", "l", "skills", "alpha"]] (by decide)
      [] impC6 [] rfl (fun i hi => absurd hi (List.not_mem_nil i))
      "c1" [Skill.mk "beta" ["", "c", "beta"]] rfl
      (by decide) "missing/**" (by decide) (by decide)

/-! ## C8: pattern validation -/

/-- C8.  Pattern validation rejects a pattern exactly when it is empty, when
some slash-separated segment is empty, or when a segment contains a doubled
star combined with other characters; every other pattern is accepted. -/
theorem pattern_validation_rejects_iff (p : String) :
    is_valid_pattern p = false ↔ specPatternInvalid p := by
  unfold is_valid_pattern specPatternInvalid
  by_cases hp : p = ""
  · subst hp; simp
  · have hp' : (p == "") = false := by simpa using hp
    rw [hp']
    simp only [Bool.false_eq_true, if_false, List.all_eq_false]
    constructor
    · rintro ⟨seg, hmem, hseg⟩
      refine Or.inr ⟨seg, hmem, ?_⟩
      by_cases h0 : seg = ""
      · exact Or.inl h0
      · have h0' : (seg == "") = false := by simpa using h0
        rw [h0'] at hseg
        simp only [Bool.false_eq_true, if_false] at hseg
        by_cases h1 : (containsStarStar seg.data && seg != "**") = true
        · rcases Bool.and_eq_true_iff.mp h1 with ⟨hc, hne⟩
          exact Or.inr ⟨(containsStarStar_iff seg.data).mp hc, by simpa using hne⟩
        · rw [Bool.not_eq_true] at h1
          rw [h1] at hseg
          simp at hseg
    · rintro (h0 | ⟨seg, hmem, hseg⟩)
      · exact absurd h0 hp
      · refine ⟨seg, hmem, ?_⟩
        rcases hseg with h0 | ⟨⟨pre, post, hd⟩, hne⟩
        · simp [h0]
        · have hc : containsStarStar seg.data = true :=
            (containsStarStar_iff seg.data).mpr ⟨pre, post, hd⟩
          have h0 : (seg == "") = false := by
            refine Bool.eq_false_iff.mpr ?_
            intro h
            have : seg = "" := by simpa using h
            subst this
            cases pre <;> simp at hd
          rw [h0]
          simp [hc, hne]

/-! ## C9: doubled-star and single-star matching -/

/-- C9.  A doubled-star pattern segment may match zero or more whole id
segments while a single star never crosses a slash: the four closed
evaluations of match_pattern from the spec. -/
theorem match_pattern_star_semantics :
    match_pattern "a/**" "a" = true ∧ match_pattern "a/**" "a/b/c" = true ∧
    match_pattern "**/x/**" "x" = true ∧ match_pattern "a/*" "a/b/c" = false := by
  decide

/-! ## C3: discovery over a missing root -/

/-- C3 counterexample.  The claim says discover_remote_skills over a root
that does not exist returns the empty skill list; in the source the WalkDir
iteration yields an error entry which discover_skills propagates, so the call
fails instead. -/
theorem remote_discovery_missing_root_errors :
    discover_remote_skills (Fs.mk [] []) ["", "r"] ≠ .ok [] ∧
    discover_remote_skills (Fs.mk [] []) ["", "r"] = .error (.walkFailed "/r") := by
  refine ⟨?_, by decide⟩
  intro h
  exact absurd (by decide : discover_remote_skills (Fs.mk [] []) ["", "r"] =
    .error (.walkFailed "/r")) (by simp [h])

/-- C3 amended.  Skill discovery over a root that does not exist fails in both
cases: the local case with a skills-root-missing error when repo_root/skills
is absent, the remote case with the propagated walk error (not the empty
list). -/
theorem discovery_missing_root (fs : Fs) (root : FPath)
    (hl : existsP fs (root ++ ["skills"]) = false)
    (hr : existsP fs root = false) :
    discover_local_skills fs root =
      .error (.skillsRootMissing (pathToString (root ++ ["skills"]))) ∧
    discover_remote_skills fs root = .error (.walkFailed (pathToString root)) := by
  constructor
  · simp [discover_local_skills, hl]
  · simp [discover_remote_skills, discover_skills, hr]

/-- C3 amended, witness: a concrete filesystem without the roots. -/
theorem discovery_missing_root_witness :
    discover_local_skills (Fs.mk [[""], ["", "x"]] []) ["", "r"] =
      .error (.skillsRootMissing "/r/skills") ∧
    discover_remote_skills (Fs.mk [[""], ["", "x"]] []) ["", "r"] =
      .error (.walkFailed "/r") :=
  discovery_missing_root (Fs.mk [[""], ["", "x"]] []) ["", "r"]
    (by decide) (by decide)

/-! ## Rendering and parsing of clean paths -/

theorem splitSlashCL_cons (c : Char) (rest : List Char) :
    splitSlashCL (c :: rest) =
      if c = '/' then [] :: splitSlashCL rest
      else
        match splitSlashCL rest with
        | [] => [[c]]
        | s :: ss => (c :: s) :: ss := by
  simp only [splitSlashCL]

theorem splitSlashCL_no_slash (l : List Char) (h : '/' ∉ l) :
    splitSlashCL l = [l] := by
  induction l with
  | nil => rfl
  | cons c cs ih =>
    have hc : ¬ c = '/' := fun hc => h (hc ▸ List.mem_cons_self c cs)
    have hcs : '/' ∉ cs := fun hm => h (List.mem_cons_of_mem c hm)
    rw [splitSlashCL_cons, if_neg hc, ih hcs]

theorem splitSlashCL_append_slash (l : List Char) (h : '/' ∉ l) (r : List Char) :
    splitSlashCL (l ++ '/' :: r) = l :: splitSlashCL r := by
  induction l with
  | nil =>
    show splitSlashCL ('/' :: r) = [] :: splitSlashCL r
    rw [splitSlashCL_cons, if_pos rfl]
  | cons c cs ih =>
    have hc : ¬ c = '/' := fun hc => h (hc ▸ List.mem_cons_self c cs)
    have hcs : '/' ∉ cs := fun hm => h (List.mem_cons_of_mem c hm)
    show splitSlashCL (c :: (cs ++ '/' :: r)) = (c :: cs) :: splitSlashCL r
    rw [splitSlashCL_cons, if_neg hc, ih hcs]

theorem parse_single (s : String) (h : '/' ∉ s.data) : parsePath s = [s] := by
  unfold parsePath splitSlash
  rw [splitSlashCL_no_slash s.data h]
  rfl

theorem parse_render (p : FPath) (hne : p ≠ [])
    (h : ∀ seg ∈ p, '/' ∉ seg.data) : parsePath (pathToString p) = p := by
  induction p with
  | nil => exact absurd rfl hne
  | cons a t ih =>
    cases t with
    | nil => exact parse_single a (h a (List.mem_cons_self a []))
    | cons b t₂ =>
      have hrest : parsePath (pathToString (b :: t₂)) = b :: t₂ :=
        ih (by simp) fun seg hs => h seg (List.mem_cons_of_mem a hs)
      have hstep : pathToString (a :: b :: t₂) =
          String.mk (a.data ++ '/' :: (pathToString (b :: t₂)).data) := rfl
      unfold parsePath splitSlash at hrest ⊢
      rw [hstep]
      show (splitSlashCL (a.data ++ '/' :: (pathToString (b :: t₂)).data)).map
        String.mk = a :: b :: t₂
      rw [splitSlashCL_append_slash a.data (h a (List.mem_cons_self a _))]
      rw [List.map_cons, hrest]

theorem pathToString_inj (p q : FPath) (hpne : p ≠ []) (hqne : q ≠ [])
    (hp : ∀ seg ∈ p, '/' ∉ seg.data) (hq : ∀ seg ∈ q, '/' ∉ seg.data)
    (h : pathToString p = pathToString q) : p = q := by
  rw [← parse_render p hpne hp, ← parse_render q hqne hq, h]

/-! ## Filesystem preservation lemmas -/

theorem mem_prefixesOf (q p : FPath) (h : q ∈ prefixesOf p) : q <+: p := by
  rcases List.mem_map.mp h with ⟨n, _, rfl⟩
  exact List.take_prefix (n + 1) p

theorem not_prefix_of_app (d dest : FPath) (h1 : ¬ d <+: dest)
    (h2 : ¬ dest <+: d) (t : FPath) : ¬ d <+: dest ++ t := by
  intro hp
  rcases List.prefix_or_prefix_of_prefix hp (List.prefix_append dest t) with h | h
  · exact h1 h
  · exact h2 h

theorem filter_filter_drop {α : Type} (l : List α) (f g : α → Bool)
    (h : ∀ x, g x = true → f x = true) :
    (l.filter f).filter g = l.filter g := by
  induction l with
  | nil => rfl
  | cons a as ih =>
    by_cases hg : g a = true
    · rw [List.filter_cons, if_pos (h a hg), List.filter_cons, if_pos hg,
        List.filter_cons, if_pos hg, ih]
    · by_cases hf : f a = true
      · rw [List.filter_cons, if_pos hf, List.filter_cons, if_neg hg,
          List.filter_cons, if_neg hg, ih]
      · rw [List.filter_cons, if_neg hf, List.filter_cons, if_neg hg, ih]

theorem subtree_removeDirAll (fs : Fs) (q d : FPath) (h1 : ¬ q <+: d)
    (h2 : ¬ d <+: q) : subtree (removeDirAll fs q) d = subtree fs d := by
  have key : ∀ x : FPath, d.isPrefixOf x = true → (!q.isPrefixOf x) = true := by
    intro x hx
    have hdx := List.isPrefixOf_iff_prefix.mp hx
    cases hq : q.isPrefixOf x with
    | false => rfl
    | true =>
      have hqx := List.isPrefixOf_iff_prefix.mp hq
      rcases List.prefix_or_prefix_of_prefix hqx hdx with h | h
      · exact absurd h h1
      · exact absurd h h2
  unfold subtree removeDirAll
  congr 1
  · exact filter_filter_drop fs.dirs _ _ key
  · exact filter_filter_drop fs.files _ _ fun x hx => key x.1 hx

theorem subtree_createDirAll (fs : Fs) (p d : FPath) (h : ¬ d <+: p) :
    subtree (createDirAll fs p) d = subtree fs d := by
  unfold subtree createDirAll
  have hadds : ((prefixesOf p).filter fun q => !fs.dirs.contains q).filter
      (fun q => d.isPrefixOf q) = [] := by
    rw [List.filter_eq_nil_iff]
    intro q hq
    have hq₁ : q ∈ prefixesOf p := List.mem_of_mem_filter hq
    intro hd
    exact h ((List.isPrefixOf_iff_prefix.mp hd).trans (mem_prefixesOf q p hq₁))
  simp only [List.filter_append, hadds, List.append_nil]

theorem subtree_addFile (fs : Fs) (p : FPath) (c : String) (d : FPath)
    (h : ¬ d <+: p) : subtree (addFile fs p c) d = subtree fs d := by
  unfold subtree addFile
  have hsingle : ([(p, c)].filter fun qc => d.isPrefixOf qc.1) = [] := by
    rw [List.filter_eq_nil_iff]
    intro qc hqc hd
    rcases List.mem_singleton.mp hqc with rfl
    exact h (List.isPrefixOf_iff_prefix.mp hd)
  congr 1
  rw [List.filter_append, hsingle, List.append_nil]
  exact filter_filter_drop fs.files _ _ fun x hx => by
    cases hxp : x.1 == p with
    | false => simp [bne, hxp]
    | true =>
      have : x.1 = p := by simpa using hxp
      exact absurd (this ▸ List.isPrefixOf_iff_prefix.mp hx) h

theorem contains_iff_mem {α : Type} [BEq α] [LawfulBEq α] (l : List α) (a : α) :
    l.contains a = true ↔ a ∈ l := by
  unfold List.contains
  exact List.elem_iff

theorem existsP_iff (fs : Fs) (p : FPath) :
    existsP fs p = true ↔ p ∈ fs.dirs ∨ ∃ c, (p, c) ∈ fs.files := by
  unfold existsP
  simp only [Bool.or_eq_true, List.any_eq_true, contains_iff_mem]
  constructor
  · rintro (h | ⟨⟨q, c⟩, hm, hq⟩)
    · exact Or.inl h
    · have : q = p := by simpa using hq
      exact Or.inr ⟨c, this ▸ hm⟩
  · rintro (h | ⟨c, hm⟩)
    · exact Or.inl h
    · exact Or.inr ⟨(p, c), hm, by simp⟩

theorem existsP_eq_of_subtree_eq (fs fs₂ : Fs) (d : FPath)
    (h : subtree fs₂ d = subtree fs d) : existsP fs₂ d = existsP fs d := by
  have hd : d.isPrefixOf d = true := List.isPrefixOf_iff_prefix.mpr (List.prefix_refl d)
  have h1 := congrArg Prod.fst h
  have h2 := congrArg Prod.snd h
  simp only [subtree] at h1 h2
  have key : ∀ fs' : Fs, (fs'.dirs.filter fun q => d.isPrefixOf q) =
      (fs.dirs.filter fun q => d.isPrefixOf q) →
      (fs'.files.filter fun qc => d.isPrefixOf qc.1) =
      (fs.files.filter fun qc => d.isPrefixOf qc.1) →
      existsP fs' d = existsP fs d := by
    intro fs' e1 e2
    have m1 : d ∈ fs'.dirs ↔ d ∈ fs.dirs := by
      constructor <;> intro hm
      · have : d ∈ fs'.dirs.filter fun q => d.isPrefixOf q :=
          List.mem_filter.mpr ⟨hm, hd⟩
        rw [e1] at this
        exact (List.mem_filter.mp this).1
      · have : d ∈ fs.dirs.filter fun q => d.isPrefixOf q :=
          List.mem_filter.mpr ⟨hm, hd⟩
        rw [← e1] at this
        exact (List.mem_filter.mp this).1
    have m2 : ∀ c, ((d, c) ∈ fs'.files ↔ (d, c) ∈ fs.files) := by
      intro c
      constructor <;> intro hm
      · have : (d, c) ∈ fs'.files.filter fun qc => d.isPrefixOf qc.1 :=
          List.mem_filter.mpr ⟨hm, hd⟩
        rw [e2] at this
        exact (List.mem_filter.mp this).1
      · have : (d, c) ∈ fs.files.filter fun qc => d.isPrefixOf qc.1 :=
          List.mem_filter.mpr ⟨hm, hd⟩
        rw [← e2] at this
        exact (List.mem_filter.mp this).1
    cases he : existsP fs d with
    | true =>
      rcases (existsP_iff fs d).mp he with hm | ⟨c, hm⟩
      · exact (existsP_iff fs' d).mpr (Or.inl (m1.mpr hm))
      · exact (existsP_iff fs' d).mpr (Or.inr ⟨c, (m2 c).mpr hm⟩)
    | false =>
      cases he' : existsP fs' d with
      | false => rfl
      | true =>
        exfalso
        rcases (existsP_iff fs' d).mp he' with hm | ⟨c, hm⟩
        · have := (existsP_iff fs d).mpr (Or.inl (m1.mp hm))
          rw [he] at this
          cases this
        · have := (existsP_iff fs d).mpr (Or.inr ⟨c, (m2 c).mp hm⟩)
          rw [he] at this
          cases this
  exact key fs₂ h1 h2

theorem existsP_createDirAll_mono (fs : Fs) (q p : FPath)
    (h : existsP fs p = true) : existsP (createDirAll fs q) p = true := by
  rcases (existsP_iff fs p).mp h with hm | ⟨c, hm⟩
  · exact (existsP_iff _ p).mpr (Or.inl (List.mem_append_left _ hm))
  · exact (existsP_iff _ p).mpr (Or.inr ⟨c, hm⟩)

theorem existsP_addFile_mono (fs : Fs) (q : FPath) (c₀ : String) (p : FPath)
    (h : existsP fs p = true) : existsP (addFile fs q c₀) p = true := by
  rcases (existsP_iff fs p).mp h with hm | ⟨c, hm⟩
  · exact (existsP_iff _ p).mpr (Or.inl hm)
  · by_cases hpq : p = q
    · subst hpq
      exact (existsP_iff _ p).mpr (Or.inr ⟨c₀, List.mem_append_right _ (by simp)⟩)
    · refine (existsP_iff _ p).mpr (Or.inr ⟨c, List.mem_append_left _ ?_⟩)
      exact List.mem_filter.mpr ⟨hm, by simpa using hpq⟩

theorem existsP_removeDirAll_of_not_pfx (fs : Fs) (q p : FPath)
    (h : ¬ q <+: p) (he : existsP fs p = true) :
    existsP (removeDirAll fs q) p = true := by
  have hq : (!q.isPrefixOf p) = true := by
    cases hb : q.isPrefixOf p with
    | false => rfl
    | true => exact absurd (List.isPrefixOf_iff_prefix.mp hb) h
  rcases (existsP_iff fs p).mp he with hm | ⟨c, hm⟩
  · exact (existsP_iff _ p).mpr (Or.inl (List.mem_filter.mpr ⟨hm, hq⟩))
  · exact (existsP_iff _ p).mpr (Or.inr ⟨c, List.mem_filter.mpr ⟨hm, hq⟩⟩)

theorem existsP_removeDirAll_false (fs : Fs) (q p : FPath)
    (he : existsP fs p = false) : existsP (removeDirAll fs q) p = false := by
  cases hb : existsP (removeDirAll fs q) p with
  | false => rfl
  | true =>
    exfalso
    rcases (existsP_iff _ p).mp hb with hm | ⟨c, hm⟩
    · have := (existsP_iff fs p).mpr (Or.inl (List.mem_of_mem_filter hm))
      rw [he] at this; cases this
    · have := (existsP_iff fs p).mpr (Or.inr ⟨c, List.mem_of_mem_filter hm⟩)
      rw [he] at this; cases this

theorem existsP_removeDirAll_self (fs : Fs) (q : FPath) :
    existsP (removeDirAll fs q) q = false := by
  cases hb : existsP (removeDirAll fs q) q with
  | false => rfl
  | true =>
    exfalso
    have hq : q.isPrefixOf q = true := List.isPrefixOf_iff_prefix.mpr (List.prefix_refl q)
    rcases (existsP_iff _ q).mp hb with hm | ⟨c, hm⟩
    · have hcontra := (List.mem_filter.mp hm).2
      rw [hq] at hcontra
      exact absurd hcontra (by simp)
    · have hcontra := (List.mem_filter.mp hm).2
      rw [hq] at hcontra
      exact absurd hcontra (by simp)

theorem foldl_fs_inv {β : Type} (l : List β) (step : Fs → β → Fs)
    (P : Fs → Prop) (hstep : ∀ fs b, b ∈ l → P fs → P (step fs b)) :
    ∀ fs : Fs, P fs → P (l.foldl step fs) := by
  induction l with
  | nil => intro fs h; exact h
  | cons a as ih =>
    intro fs h
    exact ih (fun f b hb hf => hstep f b (List.mem_cons_of_mem a hb) hf)
      (step fs a) (hstep fs a (List.mem_cons_self a as) h)

theorem existsP_createDirAll_self (fs : Fs) (p : FPath) (h : p ≠ []) :
    existsP (createDirAll fs p) p = true := by
  refine (existsP_iff _ p).mpr (Or.inl ?_)
  have hp : p ∈ prefixesOf p := by
    have hl : 0 < p.length := List.length_pos.mpr h
    refine List.mem_map.mpr ⟨p.length - 1, List.mem_range.mpr (by omega), ?_⟩
    have : p.length - 1 + 1 = p.length := by omega
    rw [this, List.take_length]
  by_cases hc : p ∈ fs.dirs
  · exact List.mem_append_left _ hc
  · refine List.mem_append_right _ (List.mem_filter.mpr ⟨hp, ?_⟩)
    have hfalse : fs.dirs.contains p = false := by
      cases hcc : fs.dirs.contains p with
      | false => rfl
      | true => exact absurd ((contains_iff_mem _ _).mp hcc) hc
    rw [hfalse]
    rfl

theorem copySkillDir_ok (fs : Fs) (src dest : FPath)
    (h : existsP fs src = true) :
    ∃ fs₂, copySkillDir fs src dest = .ok fs₂ ∧
      (∀ d, ¬ d <+: dest → ¬ dest <+: d → subtree fs₂ d = subtree fs d) ∧
      (∀ p, existsP fs p = true → existsP fs₂ p = true) ∧
      (dest ≠ [] → existsP fs₂ dest = true) := by
  have hcond : (!existsP fs src) = false := by rw [h]; rfl
  refine ⟨(fs.files.filter fun qc => src.isPrefixOf qc.1 && qc.1 != src).foldl
      (fun acc qc => addFile (createDirAll acc (dest ++ qc.1.drop src.length).dropLast)
        (dest ++ qc.1.drop src.length) qc.2)
      ((fs.dirs.filter fun q => src.isPrefixOf q && q != src).foldl
        (fun acc q => createDirAll acc (dest ++ q.drop src.length))
        (createDirAll fs dest)), ?_, ?_, ?_, ?_⟩
  · unfold copySkillDir
    rw [hcond]
    rfl
  · intro d hd1 hd2
    refine foldl_fs_inv _ _ (fun f => subtree f d = subtree fs d)
      (fun f qc _ hf => ?_) _
      (foldl_fs_inv _ _ (fun f => subtree f d = subtree fs d)
        (fun f q _ hf => ?_) _ (subtree_createDirAll fs dest d hd1))
    · have hdp : ¬ d <+: dest ++ qc.1.drop src.length :=
        not_prefix_of_app d dest hd1 hd2 _
      have hdpl : ¬ d <+: (dest ++ qc.1.drop src.length).dropLast := fun hp =>
        not_prefix_of_app d dest hd1 hd2 _
          (hp.trans (List.dropLast_prefix _))
      dsimp only
      rw [subtree_addFile _ _ _ _ hdp, subtree_createDirAll _ _ _ hdpl, hf]
    · dsimp only
      rw [subtree_createDirAll _ _ _ (not_prefix_of_app d dest hd1 hd2 _), hf]
  · intro p hp
    refine foldl_fs_inv _ _ (fun f => existsP f p = true)
      (fun f qc _ hf => existsP_addFile_mono _ _ _ _
        (existsP_createDirAll_mono _ _ _ hf)) _
      (foldl_fs_inv _ _ (fun f => existsP f p = true)
        (fun f q _ hf => existsP_createDirAll_mono _ _ _ hf) _
        (existsP_createDirAll_mono _ _ _ hp))
  · intro hne
    refine foldl_fs_inv _ _ (fun f => existsP f dest = true)
      (fun f qc _ hf => existsP_addFile_mono _ _ _ _
        (existsP_createDirAll_mono _ _ _ hf)) _
      (foldl_fs_inv _ _ (fun f => existsP f dest = true)
        (fun f q _ hf => existsP_createDirAll_mono _ _ _ hf) _
        (existsP_createDirAll_self fs dest hne))

theorem single_child_eq_of_pfx (sinkPath : FPath) (a b : String)
    (h : sinkPath ++ [a] <+: sinkPath ++ [b]) : a = b := by
  have hlen : (sinkPath ++ [a]).length = (sinkPath ++ [b]).length := by simp
  have heq := List.IsPrefix.eq_of_length h hlen
  have := List.append_cancel_left heq
  simpa using this

theorem isPrefixOf_append (p t : FPath) : p.isPrefixOf (p ++ t) = true :=
  List.isPrefixOf_iff_prefix.mpr (List.prefix_append p t)

theorem removeStale_subset (sinkPath : FPath) (newPaths olds : List String)
    (fs : Fs) (h : ∀ o ∈ olds, newPaths.contains o = true) :
    removeStale sinkPath newPaths olds fs = (fs, none) := by
  induction olds with
  | nil => rfl
  | cons o rest ih =>
    unfold removeStale
    rw [if_pos (h o (List.mem_cons_self o rest))]
    exact ih fun o₂ ho₂ => h o₂ (List.mem_cons_of_mem o ho₂)

theorem removeStale_clean (sinkPath : FPath)
    (hsink : ∀ seg ∈ sinkPath, '/' ∉ seg.data)
    (newPaths olds : List String) (fs : Fs)
    (holds : ∀ o ∈ olds, ∃ s, '/' ∉ s.data ∧ o = pathToString (sinkPath ++ [s])) :
    ∃ fs₂, removeStale sinkPath newPaths olds fs = (fs₂, none) ∧
      (∀ d : FPath, (∃ n, '/' ∉ n.data ∧ d = sinkPath ++ [n]) →
        pathToString d ∈ newPaths → subtree fs₂ d = subtree fs d) ∧
      (∀ p, ¬ sinkPath <+: p → existsP fs p = true → existsP fs₂ p = true) ∧
      (∀ p, existsP fs p = false → existsP fs₂ p = false) ∧
      (∀ o ∈ olds, newPaths.contains o = false →
        existsP fs₂ (parsePath o) = false) := by
  induction olds generalizing fs with
  | nil =>
    exact ⟨fs, rfl, fun d _ _ => rfl, fun p _ h => h, fun p h => h,
      fun o ho => absurd ho (List.not_mem_nil o)⟩
  | cons o rest ih =>
    obtain ⟨s, hsdata, ho⟩ := holds o (List.mem_cons_self o rest)
    have hclean : ∀ seg ∈ sinkPath ++ [s], '/' ∉ seg.data := by
      intro seg hseg
      rcases List.mem_append.mp hseg with hm | hm
      · exact hsink seg hm
      · rcases List.mem_singleton.mp hm with rfl
        exact hsdata
    have hparse : parsePath o = sinkPath ++ [s] := by
      rw [ho]
      exact parse_render (sinkPath ++ [s]) (by simp) hclean
    cases hc : newPaths.contains o with
    | true =>
      obtain ⟨fs₂, heq, hsub, hout, hfalse, holdsr⟩ :=
        ih fs fun o₂ ho₂ => holds o₂ (List.mem_cons_of_mem o ho₂)
      refine ⟨fs₂, ?_, hsub, hout, hfalse, ?_⟩
      · unfold removeStale
        rw [if_pos hc]
        exact heq
      · intro o₂ ho₂ hc₂
        rcases List.mem_cons.mp ho₂ with rfl | hm
        · rw [hc] at hc₂; cases hc₂
        · exact holdsr o₂ hm hc₂
    | false =>
      have hens : sinkPath.isPrefixOf (parsePath o) = true := by
        rw [hparse]
        exact isPrefixOf_append sinkPath [s]
      have hstep : removeStale sinkPath newPaths (o :: rest) fs =
          removeStale sinkPath newPaths rest
            (if existsP fs (parsePath o) = true then
              removeDirAll fs (parsePath o) else fs) := by
        simp only [removeStale, hc, Bool.false_eq_true, if_false]
        rw [if_pos hens]
      have hq : parsePath o = sinkPath ++ [s] := hparse
      obtain ⟨fs₂, heq, hsub, hout, hfalse, holdsr⟩ :=
        ih (if existsP fs (parsePath o) = true then
          removeDirAll fs (parsePath o) else fs)
          fun o₂ ho₂ => holds o₂ (List.mem_cons_of_mem o ho₂)
      have hqfalse : existsP (if existsP fs (parsePath o) = true then
          removeDirAll fs (parsePath o) else fs) (parsePath o) = false := by
        by_cases hex : existsP fs (parsePath o) = true
        · rw [if_pos hex]
          exact existsP_removeDirAll_self fs (parsePath o)
        · rw [if_neg hex]
          exact Bool.not_eq_true _ ▸ Bool.eq_false_iff.mpr hex
      refine ⟨fs₂, by rw [hstep]; exact heq, ?_, ?_, ?_, ?_⟩
      · intro d hd hdnew
        obtain ⟨n, hndata, rfl⟩ := hd
        have hne : parsePath o ≠ sinkPath ++ [n] := by
          intro hcontra
          have : o = pathToString (sinkPath ++ [n]) := by
            rw [ho]
            rw [hq] at hcontra
            rw [hcontra]
          rw [this] at hc
          have := (contains_iff_mem newPaths _).mpr hdnew
          rw [hc] at this
          cases this
        have hsubstep : subtree (if existsP fs (parsePath o) = true then
            removeDirAll fs (parsePath o) else fs) (sinkPath ++ [n]) =
            subtree fs (sinkPath ++ [n]) := by
          by_cases hex : existsP fs (parsePath o) = true
          · rw [if_pos hex]
            refine subtree_removeDirAll fs _ _ ?_ ?_
            · rw [hq]
              intro hp
              exact hne (by rw [hq, single_child_eq_of_pfx sinkPath s n hp])
            · rw [hq]
              intro hp
              exact hne (by rw [hq, single_child_eq_of_pfx sinkPath n s hp])
          · rw [if_neg hex]
        rw [hsub (sinkPath ++ [n]) ⟨n, hndata, rfl⟩ hdnew, hsubstep]
      · intro p hpout hpex
        refine hout p hpout ?_
        by_cases hex : existsP fs (parsePath o) = true
        · rw [if_pos hex]
          refine existsP_removeDirAll_of_not_pfx fs _ p ?_ hpex
          intro hp
          exact hpout ((List.prefix_append sinkPath [s]).trans (hq ▸ hp))
        · rw [if_neg hex]
          exact hpex
      · intro p hpf
        refine hfalse p ?_
        by_cases hex : existsP fs (parsePath o) = true
        · rw [if_pos hex]
          exact existsP_removeDirAll_false fs _ p hpf
        · rw [if_neg hex]
          exact hpf
      · intro o₂ ho₂ hc₂
        rcases List.mem_cons.mp ho₂ with rfl | hm
        · exact hfalse (parsePath o₂) hqfalse
        · exact holdsr o₂ hm hc₂

theorem not_single_child_pfx (sinkPath : FPath) (n m : String) (hne : n ≠ m) :
    ¬ (sinkPath ++ [n]) <+: (sinkPath ++ [m]) :=
  fun hp => hne (single_child_eq_of_pfx sinkPath n m hp)

theorem ensure_child_ok (sinkPath : FPath) (t : FPath) :
    ensure_child_path sinkPath (sinkPath ++ t) = .ok () := by
  unfold ensure_child_path
  rw [if_pos (isPrefixOf_append sinkPath t)]

theorem not_dest_prefix_dir (sinkPath dest dir : FPath) (t : FPath)
    (hd : dest = sinkPath ++ t) (hout : ¬ sinkPath <+: dir) : ¬ dest <+: dir :=
  fun hp => hout ((List.prefix_append sinkPath t).trans (hd ▸ hp))

theorem installSkills_notOwned (base sep : String) (sinkPath : FPath)
    (state : StateFile) (packName : String) (fs0 : Fs) :
    ∀ (skills : List ResolvedSkill) (fs : Fs),
    (∀ sk ∈ skills, '/' ∉ (install_name base sep sk.id).data) →
    (∀ sk ∈ skills, existsP fs sk.dir = true ∧ ¬ sinkPath <+: sk.dir) →
    (∀ sk ∈ skills,
      existsP fs0 (sinkPath ++ parsePath (install_name base sep sk.id)) = true →
      record_owned_path state sinkPath packName
        (sinkPath ++ parsePath (install_name base sep sk.id)) = false →
      subtree fs (sinkPath ++ parsePath (install_name base sep sk.id)) =
        subtree fs0 (sinkPath ++ parsePath (install_name base sep sk.id))) →
    (∃ sk ∈ skills,
      existsP fs0 (sinkPath ++ parsePath (install_name base sep sk.id)) = true ∧
      record_owned_path state sinkPath packName
        (sinkPath ++ parsePath (install_name base sep sk.id)) = false) →
    ∃ p fs₂,
      installSkills base sep sinkPath state packName skills fs =
        (fs₂, some (.notOwned p)) ∧
      ∀ sk ∈ skills,
        existsP fs0 (sinkPath ++ parsePath (install_name base sep sk.id)) = true →
        record_owned_path state sinkPath packName
          (sinkPath ++ parsePath (install_name base sep sk.id)) = false →
        subtree fs₂ (sinkPath ++ parsePath (install_name base sep sk.id)) =
          subtree fs0 (sinkPath ++ parsePath (install_name base sep sk.id)) := by
  intro skills
  induction skills with
  | nil =>
    intro fs _ _ _ hoff
    rcases hoff with ⟨sk, hmem, _⟩
    exact absurd hmem (List.not_mem_nil sk)
  | cons sk0 rest ih =>
    intro fs hclean hsrc hsub hoff
    have hmem0 : sk0 ∈ sk0 :: rest := List.mem_cons_self sk0 rest
    have hname0 : parsePath (install_name base sep sk0.id) =
        [install_name base sep sk0.id] :=
      parse_single _ (hclean sk0 hmem0)
    cases hex : existsP fs
        (sinkPath ++ parsePath (install_name base sep sk0.id)) with
    | true =>
      cases hown : record_owned_path state sinkPath packName
          (sinkPath ++ parsePath (install_name base sep sk0.id)) with
      | false =>
        refine ⟨pathToString (sinkPath ++ parsePath (install_name base sep sk0.id)),
          fs, ?_, hsub⟩
        simp only [installSkills]
        rw [if_pos hex, if_pos (by rw [hown]; rfl)]
      | true =>
        have hsrcr : existsP (removeDirAll fs
            (sinkPath ++ parsePath (install_name base sep sk0.id)))
            sk0.dir = true := by
          refine existsP_removeDirAll_of_not_pfx _ _ _ ?_ (hsrc sk0 hmem0).1
          exact not_dest_prefix_dir sinkPath _ sk0.dir _ rfl (hsrc sk0 hmem0).2
        obtain ⟨fsC, hcopy, hcsub, hcmono, _⟩ :=
          copySkillDir_ok (removeDirAll fs
            (sinkPath ++ parsePath (install_name base sep sk0.id)))
            sk0.dir (sinkPath ++ parsePath (install_name base sep sk0.id)) hsrcr
        have hne : ∀ sk ∈ rest,
            record_owned_path state sinkPath packName
              (sinkPath ++ parsePath (install_name base sep sk.id)) = false →
            sinkPath ++ parsePath (install_name base sep sk.id) ≠
              sinkPath ++ parsePath (install_name base sep sk0.id) := by
          intro sk hmem hof heq
          rw [heq, hown] at hof
          cases hof
        have hdisj : ∀ sk ∈ rest,
            record_owned_path state sinkPath packName
              (sinkPath ++ parsePath (install_name base sep sk.id)) = false →
            ¬ (sinkPath ++ parsePath (install_name base sep sk.id)) <+:
              (sinkPath ++ parsePath (install_name base sep sk0.id)) ∧
            ¬ (sinkPath ++ parsePath (install_name base sep sk0.id)) <+:
              (sinkPath ++ parsePath (install_name base sep sk.id)) := by
          intro sk hmem hof
          have hname : parsePath (install_name base sep sk.id) =
              [install_name base sep sk.id] :=
            parse_single _ (hclean sk (List.mem_cons_of_mem sk0 hmem))
          have hnn : install_name base sep sk.id ≠ install_name base sep sk0.id := by
            intro hgg
            exact hne sk hmem hof (by rw [hname, hname0, hgg])
          rw [hname, hname0]
          exact ⟨not_single_child_pfx sinkPath _ _ hnn,
            not_single_child_pfx sinkPath _ _ (Ne.symm hnn)⟩
        obtain ⟨p, fs₂, heq, hsubr⟩ := ih fsC
          (fun sk hm => hclean sk (List.mem_cons_of_mem sk0 hm))
          (fun sk hm => ⟨hcmono _ (existsP_removeDirAll_of_not_pfx _ _ _
              (not_dest_prefix_dir sinkPath _ sk.dir _ rfl
                (hsrc sk (List.mem_cons_of_mem sk0 hm)).2)
              (hsrc sk (List.mem_cons_of_mem sk0 hm)).1),
            (hsrc sk (List.mem_cons_of_mem sk0 hm)).2⟩)
          (fun sk hm hof1 hof2 => by
            rcases hdisj sk hm hof2 with ⟨hd1, hd2⟩
            rw [hcsub _ hd1 hd2, subtree_removeDirAll _ _ _ hd2 hd1]
            exact hsub sk (List.mem_cons_of_mem sk0 hm) hof1 hof2)
          (by
            rcases hoff with ⟨sk, hmem, hof1, hof2⟩
            rcases List.mem_cons.mp hmem with rfl | hm
            · rw [hown] at hof2; cases hof2
            · exact ⟨sk, hm, hof1, hof2⟩)
        refine ⟨p, fs₂, ?_, ?_⟩
        · simp only [installSkills]
          rw [if_pos hex, if_neg (by rw [hown]; simp), ensure_child_ok,
            hcopy]
          exact heq
        · intro sk hmem hof1 hof2
          rcases List.mem_cons.mp hmem with rfl | hm
          · rw [hown] at hof2; cases hof2
          · exact hsubr sk hm hof1 hof2
    | false =>
      obtain ⟨fsC, hcopy, hcsub, hcmono, _⟩ :=
        copySkillDir_ok fs sk0.dir
          (sinkPath ++ parsePath (install_name base sep sk0.id))
          (hsrc sk0 hmem0).1
      have hnotoff0 : ¬ (existsP fs0
          (sinkPath ++ parsePath (install_name base sep sk0.id)) = true ∧
          record_owned_path state sinkPath packName
            (sinkPath ++ parsePath (install_name base sep sk0.id)) = false) := by
        rintro ⟨hof1, hof2⟩
        have := existsP_eq_of_subtree_eq fs0 fs _ (hsub sk0 hmem0 hof1 hof2)
        rw [hex, hof1] at this
        cases this
      have hdisj : ∀ sk ∈ rest,
          existsP fs0 (sinkPath ++ parsePath (install_name base sep sk.id)) = true →
          record_owned_path state sinkPath packName
            (sinkPath ++ parsePath (install_name base sep sk.id)) = false →
          ¬ (sinkPath ++ parsePath (install_name base sep sk.id)) <+:
            (sinkPath ++ parsePath (install_name base sep sk0.id)) ∧
          ¬ (sinkPath ++ parsePath (install_name base sep sk0.id)) <+:
            (sinkPath ++ parsePath (install_name base sep sk.id)) := by
        intro sk hmem hof1 hof2
        have hname : parsePath (install_name base sep sk.id) =
            [install_name base sep sk.id] :=
          parse_single _ (hclean sk (List.mem_cons_of_mem sk0 hmem))
        have hnn : install_name base sep sk.id ≠ install_name base sep sk0.id := by
          intro hgg
          have heqd : sinkPath ++ parsePath (install_name base sep sk.id) =
              sinkPath ++ parsePath (install_name base sep sk0.id) := by
            rw [hname, hname0, hgg]
          exact hnotoff0 ⟨heqd ▸ hof1, heqd ▸ hof2⟩
        rw [hname, hname0]
        exact ⟨not_single_child_pfx sinkPath _ _ hnn,
          not_single_child_pfx sinkPath _ _ (Ne.symm hnn)⟩
      obtain ⟨p, fs₂, heq, hsubr⟩ := ih fsC
        (fun sk hm => hclean sk (List.mem_cons_of_mem sk0 hm))
        (fun sk hm => ⟨hcmono _ (hsrc sk (List.mem_cons_of_mem sk0 hm)).1,
          (hsrc sk (List.mem_cons_of_mem sk0 hm)).2⟩)
        (fun sk hm hof1 hof2 => by
          rcases hdisj sk hm hof1 hof2 with ⟨hd1, hd2⟩
          rw [hcsub _ hd1 hd2]
          exact hsub sk (List.mem_cons_of_mem sk0 hm) hof1 hof2)
        (by
          rcases hoff with ⟨sk, hmem, hof1, hof2⟩
          rcases List.mem_cons.mp hmem with rfl | hm
          · exact absurd ⟨hof1, hof2⟩ hnotoff0
          · exact ⟨sk, hm, hof1, hof2⟩)
      refine ⟨p, fs₂, ?_, ?_⟩
      · simp only [installSkills]
        rw [if_neg (by rw [hex]; simp), hcopy]
        exact heq
      · intro sk hmem hof1 hof2
        rcases List.mem_cons.mp hmem with rfl | hm
        · exact absurd ⟨hof1, hof2⟩ hnotoff0
        · exact hsubr sk hm hof1 hof2

theorem not_child_prefix_sink (sinkPath : FPath) (n : String) :
    ¬ (sinkPath ++ [n]) <+: sinkPath := by
  intro hp
  have := hp.length_le
  simp at this

/-! ## C4: unowned destinations -/

/-- C4.  When some final skill's computed destination already exists but is
not recorded as owned by this pack's record, install_pack fails with the
destination-not-owned error, the state is not mutated, and the subtree at
every such pre-existing unowned destination is left exactly as it was
(ownership is checked before any removal of that directory).  The hypotheses
pin the shapes install_pack itself produces: sink components and install
names without slashes, recorded paths being direct children of the sink, and
skill sources living outside the sink. -/
theorem install_unowned_destination (resolved : ResolvedPack) (sink : String)
    (sinkPath : FPath) (state : StateFile) (fs : Fs) (now : String)
    (hsink : ∀ seg ∈ sinkPath, '/' ∉ seg.data)
    (hclean : ∀ sk ∈ resolved.final_skills,
      '/' ∉ (install_name resolved.pack.installBase resolved.pack.installSep
        sk.id).data)
    (hold : ∀ idx, find_record_index state sinkPath resolved.pack.name = some idx →
      ∀ o ∈ (state.installs.getD idx default).installed_paths,
        ∃ s, '/' ∉ s.data ∧ o = pathToString (sinkPath ++ [s]))
    (hsrc : ∀ sk ∈ resolved.final_skills,
      existsP fs sk.dir = true ∧ ¬ sinkPath <+: sk.dir)
    (hoff : ∃ sk ∈ resolved.final_skills,
      existsP fs (sinkPath ++ parsePath (install_name resolved.pack.installBase
        resolved.pack.installSep sk.id)) = true ∧
      record_owned_path state sinkPath resolved.pack.name
        (sinkPath ++ parsePath (install_name resolved.pack.installBase
          resolved.pack.installSep sk.id)) = false) :
    ∃ p fs₂,
      install_pack resolved sink sinkPath state fs now =
        (fs₂, state, .error (.notOwned p)) ∧
      ∀ sk ∈ resolved.final_skills,
        existsP fs (sinkPath ++ parsePath (install_name resolved.pack.installBase
          resolved.pack.installSep sk.id)) = true →
        record_owned_path state sinkPath resolved.pack.name
          (sinkPath ++ parsePath (install_name resolved.pack.installBase
            resolved.pack.installSep sk.id)) = false →
        subtree fs₂ (sinkPath ++ parsePath (install_name resolved.pack.installBase
          resolved.pack.installSep sk.id)) =
          subtree fs (sinkPath ++ parsePath (install_name resolved.pack.installBase
            resolved.pack.installSep sk.id)) := by
  have hsub1 : ∀ sk ∈ resolved.final_skills,
      subtree (createDirAll fs sinkPath)
        (sinkPath ++ parsePath (install_name resolved.pack.installBase
          resolved.pack.installSep sk.id)) =
      subtree fs (sinkPath ++ parsePath (install_name resolved.pack.installBase
        resolved.pack.installSep sk.id)) := by
    intro sk hm
    have hname := parse_single _ (hclean sk hm)
    rw [hname]
    exact subtree_createDirAll fs sinkPath _ (not_child_prefix_sink sinkPath _)
  have hmemnew : ∀ sk ∈ resolved.final_skills,
      pathToString (sinkPath ++ parsePath (install_name resolved.pack.installBase
        resolved.pack.installSep sk.id)) ∈
      build_install_paths resolved.final_skills sinkPath
        resolved.pack.installBase resolved.pack.installSep := by
    intro sk hm
    unfold build_install_paths
    rw [(sortByLe_perm strLe _).mem_iff]
    exact List.mem_map_of_mem _ hm
  obtain ⟨fsS, hstaleEq, hsubS, houtS⟩ :
      ∃ fsS, stalePhase state sinkPath resolved.pack.name
        (build_install_paths resolved.final_skills sinkPath
          resolved.pack.installBase resolved.pack.installSep)
        (createDirAll fs sinkPath) = (fsS, none) ∧
      (∀ sk ∈ resolved.final_skills,
        subtree fsS (sinkPath ++ parsePath (install_name resolved.pack.installBase
          resolved.pack.installSep sk.id)) =
        subtree (createDirAll fs sinkPath)
          (sinkPath ++ parsePath (install_name resolved.pack.installBase
            resolved.pack.installSep sk.id))) ∧
      (∀ p, ¬ sinkPath <+: p → existsP (createDirAll fs sinkPath) p = true →
        existsP fsS p = true) := by
    unfold stalePhase
    cases hfind : find_record_index state sinkPath resolved.pack.name with
    | none => exact ⟨createDirAll fs sinkPath, rfl, fun sk _ => rfl, fun p _ h => h⟩
    | some idx =>
      obtain ⟨fsS, heq, hsub, hout, _, _⟩ :=
        removeStale_clean sinkPath hsink
          (build_install_paths resolved.final_skills sinkPath
            resolved.pack.installBase resolved.pack.installSep)
          ((state.installs.getD idx default).installed_paths)
          (createDirAll fs sinkPath) (hold idx hfind)
      refine ⟨fsS, heq, ?_, hout⟩
      intro sk hm
      have hname := parse_single _ (hclean sk hm)
      refine hsub _ ⟨install_name resolved.pack.installBase
        resolved.pack.installSep sk.id, hclean sk hm, by rw [hname]⟩ ?_
      exact hmemnew sk hm
  obtain ⟨p, fs₂, hskillsEq, hsubF⟩ :=
    installSkills_notOwned resolved.pack.installBase resolved.pack.installSep
      sinkPath state resolved.pack.name fs resolved.final_skills fsS
      hclean
      (fun sk hm => ⟨houtS sk.dir (hsrc sk hm).2
        (existsP_createDirAll_mono fs sinkPath sk.dir (hsrc sk hm).1),
        (hsrc sk hm).2⟩)
      (fun sk hm _ _ => by rw [hsubS sk hm, hsub1 sk hm])
      hoff
  refine ⟨p, fs₂, ?_, hsubF⟩
  unfold install_pack
  rw [hstaleEq]
  dsimp only
  rw [hskillsEq]

/-- C4 witness: a sink already holding demo__a__b with an empty state; the
install fails with the not-owned error, keeps the state, and leaves the
directory alone. -/
theorem install_unowned_destination_witness :
    ∃ p fs₂,
      install_pack rpC4 "codex" ["", "s"] (StateFile.mk 1 []) fsC4 "t" =
        (fs₂, StateFile.mk 1 [], .error (.notOwned p)) ∧
      ∀ sk ∈ rpC4.final_skills,
        existsP fsC4 (["", "s"] ++ parsePath (install_name rpC4.pack.installBase
          rpC4.pack.installSep sk.id)) = true →
        record_owned_path (StateFile.mk 1 []) ["", "s"] rpC4.pack.name
          (["", "s"] ++ parsePath (install_name rpC4.pack.installBase
            rpC4.pack.installSep sk.id)) = false →
        subtree fs₂ (["", "s"] ++ parsePath (install_name rpC4.pack.installBase
          rpC4.pack.installSep sk.id)) =
          subtree fsC4 (["", "s"] ++ parsePath (install_name rpC4.pack.installBase
            rpC4.pack.installSep sk.id)) :=
  install_unowned_destination rpC4 "codex" ["", "s"] (StateFile.mk 1 []) fsC4 "t"
    (by decide) (by decide)
    (fun idx h => Option.noConfusion h)
    (by decide)
    ⟨ResolvedSkill.mk "a/b" ["", "skill"] SkillSource.localSrc,
      by decide, by decide, by decide⟩

theorem existsP_createDirAll_of_not_pfx (fs : Fs) (q p : FPath)
    (h : ¬ p <+: q) : existsP (createDirAll fs q) p = existsP fs p := by
  cases he : existsP fs p with
  | true => exact existsP_createDirAll_mono fs q p he
  | false =>
    cases he₂ : existsP (createDirAll fs q) p with
    | false => rfl
    | true =>
      exfalso
      rcases (existsP_iff _ p).mp he₂ with hm | ⟨c, hm⟩
      · rcases List.mem_append.mp hm with hm₂ | hm₂
        · have := (existsP_iff fs p).mpr (Or.inl hm₂)
          rw [he] at this; cases this
        · exact h (mem_prefixesOf p q (List.mem_of_mem_filter hm₂))
      · have := (existsP_iff fs p).mpr (Or.inr ⟨c, hm⟩)
        rw [he] at this; cases this

/-! ## C10: uninstall tolerates missing destinations -/

theorem removeRecorded_ok (sinkPath : FPath) (paths : List String)
    (h : ∀ o ∈ paths, sinkPath <+: parsePath o) :
    ∀ fs : Fs, ∃ fs₂, removeRecorded sinkPath paths fs = (fs₂, none) := by
  induction paths with
  | nil => intro fs; exact ⟨fs, rfl⟩
  | cons p rest ih =>
    intro fs
    have hp : sinkPath.isPrefixOf (parsePath p) = true :=
      List.isPrefixOf_iff_prefix.mpr (h p (List.mem_cons_self p rest))
    obtain ⟨fs₂, heq⟩ := (ih fun o ho => h o (List.mem_cons_of_mem p ho))
      (if existsP fs (parsePath p) = true then removeDirAll fs (parsePath p)
       else fs)
    refine ⟨fs₂, ?_⟩
    simp only [removeRecorded]
    rw [if_pos hp]
    exact heq

/-- C10.  When the state holds a record for (sink_path, pack) whose recorded
paths all lie under the sink path, uninstall_pack succeeds, returns exactly
that record and removes it from the state — with no assumption that any of
the recorded paths still exists on disk, since each removal is guarded by an
existence check. -/
theorem uninstall_returns_and_removes_record (state : StateFile)
    (sinkPath : FPath) (pack : String) (fs : Fs) (idx : Nat)
    (hfind : find_record_index state sinkPath pack = some idx)
    (hunder : ∀ o ∈ (state.installs.getD idx default).installed_paths,
      sinkPath <+: parsePath o) :
    ∃ fs₂, uninstall_pack state sinkPath pack fs =
      (fs₂, StateFile.mk state.version (state.installs.eraseIdx idx),
       .ok (state.installs.getD idx default)) := by
  obtain ⟨fs₂, heq⟩ := removeRecorded_ok sinkPath
    (state.installs.getD idx default).installed_paths hunder fs
  refine ⟨fs₂, ?_⟩
  unfold uninstall_pack
  rw [hfind]
  dsimp only
  rw [heq]

/-- C10 witness: the single recorded path does not exist in the filesystem at
all, yet uninstall succeeds, returns the record and empties the state. -/
theorem uninstall_returns_and_removes_record_witness :
    ∃ fs₂, uninstall_pack stC5 ["", "s"] "demo" (Fs.mk [[""], ["", "s"]] []) =
      (fs₂, StateFile.mk 1 (stC5.installs.eraseIdx 0),
       .ok (stC5.installs.getD 0 default)) :=
  uninstall_returns_and_removes_record stC5 ["", "s"] "demo"
    (Fs.mk [[""], ["", "s"]] []) 0 (by decide) (by decide)

/-! ## C5: reconciliation removes stale destinations -/

/-- C5.  Given a prior record for (sink_path, demo) whose only recorded path
is sink/demo__old, and a new resolution of the pack whose only computed
destination is sink/demo__new, a successful install leaves sink/demo__old
absent and sink/demo__new present. -/
theorem install_removes_stale_destination (sinkPath skillDir : FPath)
    (state : StateFile) (fs : Fs) (sink now : String) (idx : Nat)
    (hsink : ∀ seg ∈ sinkPath, '/' ∉ seg.data)
    (hfind : find_record_index state sinkPath "demo" = some idx)
    (hpaths : (state.installs.getD idx default).installed_paths =
      [pathToString (sinkPath ++ ["demo__old"])])
    (hsrc : existsP fs skillDir = true) (hsrcout : ¬ sinkPath <+: skillDir)
    (hnew : existsP fs (sinkPath ++ ["demo__new"]) = false) :
    ∃ fs₂ st₂ rec,
      install_pack (resolvedC5 skillDir) sink sinkPath state fs now =
        (fs₂, st₂, .ok rec) ∧
      existsP fs₂ (sinkPath ++ ["demo__old"]) = false ∧
      existsP fs₂ (sinkPath ++ ["demo__new"]) = true := by
  have hclean_old : ∀ seg ∈ sinkPath ++ ["demo__old"], '/' ∉ seg.data := by
    intro seg hs
    rcases List.mem_append.mp hs with hm | hm
    · exact hsink seg hm
    · rcases List.mem_singleton.mp hm with rfl
      decide
  have hclean_new : ∀ seg ∈ sinkPath ++ ["demo__new"], '/' ∉ seg.data := by
    intro seg hs
    rcases List.mem_append.mp hs with hm | hm
    · exact hsink seg hm
    · rcases List.mem_singleton.mp hm with rfl
      decide
  have hold_ne_new : pathToString (sinkPath ++ ["demo__old"]) ≠
      pathToString (sinkPath ++ ["demo__new"]) := by
    intro h
    have hll := pathToString_inj _ _ (by simp) (by simp) hclean_old hclean_new h
    have h2 := List.append_cancel_left hll
    exact absurd h2 (by decide)
  have hcontains : ([pathToString (sinkPath ++ ["demo__new"])].contains
      (pathToString (sinkPath ++ ["demo__old"]))) = false := by
    cases hb : ([pathToString (sinkPath ++ ["demo__new"])].contains
        (pathToString (sinkPath ++ ["demo__old"]))) with
    | false => rfl
    | true =>
      exact absurd ((contains_iff_mem _ _).mp hb) (by simpa using hold_ne_new)
  obtain ⟨fsS, hstale, hsubS, houtS, hfalseS, holdGone⟩ :=
    removeStale_clean sinkPath hsink
      [pathToString (sinkPath ++ ["demo__new"])]
      [pathToString (sinkPath ++ ["demo__old"])]
      (createDirAll fs sinkPath)
      (by
        intro o ho
        rcases List.mem_singleton.mp ho with rfl
        exact ⟨"demo__old", by decide, rfl⟩)
  have hstalePhase : stalePhase state sinkPath "demo"
      [pathToString (sinkPath ++ ["demo__new"])]
      (createDirAll fs sinkPath) = (fsS, none) := by
    unfold stalePhase
    rw [hfind]
    dsimp only
    rw [hpaths]
    exact hstale
  have hOldGone : existsP fsS (sinkPath ++ ["demo__old"]) = false := by
    have h := holdGone (pathToString (sinkPath ++ ["demo__old"]))
      (List.mem_singleton.mpr rfl) hcontains
    rwa [parse_render _ (by simp) hclean_old] at h
  have hNewGone : existsP fsS (sinkPath ++ ["demo__new"]) = false := by
    refine hfalseS _ ?_
    rw [existsP_createDirAll_of_not_pfx fs sinkPath _
      (not_child_prefix_sink sinkPath _)]
    exact hnew
  have hSrcS : existsP fsS skillDir = true :=
    houtS skillDir hsrcout (existsP_createDirAll_mono fs sinkPath skillDir hsrc)
  obtain ⟨fsC, hcopy, hcsub, hcmono, hcdest⟩ :=
    copySkillDir_ok fsS skillDir (sinkPath ++ ["demo__new"]) hSrcS
  have hNewNow : existsP fsC (sinkPath ++ ["demo__new"]) = true :=
    hcdest (by simp)
  have hOldStill : existsP fsC (sinkPath ++ ["demo__old"]) = false := by
    have hsubC := hcsub (sinkPath ++ ["demo__old"])
      (not_single_child_pfx sinkPath _ _ (by decide))
      (not_single_child_pfx sinkPath _ _ (by decide))
    rw [existsP_eq_of_subtree_eq _ _ _ hsubC]
    exact hOldGone
  have hNewGone' : existsP fsS
      (sinkPath ++ parsePath (install_name "demo" "__" "new")) = false := hNewGone
  have hcopy' : copySkillDir fsS skillDir
      (sinkPath ++ parsePath (install_name "demo" "__" "new")) = .ok fsC := hcopy
  have hloop : installSkills "demo" "__" sinkPath state "demo"
      (resolvedC5 skillDir).final_skills fsS = (fsC, none) := by
    show installSkills "demo" "__" sinkPath state "demo"
      [ResolvedSkill.mk "new" skillDir SkillSource.localSrc] fsS = (fsC, none)
    simp only [installSkills]
    rw [if_neg (by rw [hNewGone']; simp), hcopy']
  refine ⟨fsC,
    StateFile.mk state.version (state.installs.set idx
      (mkInstallRecord (resolvedC5 skillDir) sink sinkPath now)),
    mkInstallRecord (resolvedC5 skillDir) sink sinkPath now,
    ?_, hOldStill, hNewNow⟩
  unfold install_pack
  have hsp : stalePhase state sinkPath (resolvedC5 skillDir).pack.name
      (build_install_paths (resolvedC5 skillDir).final_skills sinkPath
        (resolvedC5 skillDir).pack.installBase
        (resolvedC5 skillDir).pack.installSep)
      (createDirAll fs sinkPath) = (fsS, none) := hstalePhase
  rw [hsp]
  dsimp only
  have hloop' : installSkills (resolvedC5 skillDir).pack.installBase
      (resolvedC5 skillDir).pack.installSep sinkPath state
      (resolvedC5 skillDir).pack.name
      (resolvedC5 skillDir).final_skills fsS = (fsC, none) := hloop
  rw [hloop']
  dsimp only
  have hfind' : find_record_index state sinkPath
      (resolvedC5 skillDir).pack.name = some idx := hfind
  rw [hfind']

/-- C5 witness: the concrete scenario with sink /s, a stale /s/demo__old on
disk and the skill content at /skill. -/
theorem install_removes_stale_destination_witness :
    ∃ fs₂ st₂ rec,
      install_pack (resolvedC5 ["", "skill"]) "codex" ["", "s"] stC5 fsC5 "t2" =
        (fs₂, st₂, .ok rec) ∧
      existsP fs₂ (["", "s"] ++ ["demo__old"]) = false ∧
      existsP fs₂ (["", "s"] ++ ["demo__new"]) = true :=
  install_removes_stale_destination ["", "s"] ["", "skill"] stC5 fsC5 "codex"
    "t2" 0 (by decide) (by decide) (by decide) (by decide) (by decide)
    (by decide)

/-! ## C2: install naming and the flatten flag -/

/-- C2 counterexample: rpC4 has installFlatten = false and its single skill
has the hierarchical id a/b, yet install succeeds with the flattened
destination /s/demo__a__b recorded and present on disk, while no hierarchical
destination /s/demo__a/b is created. -/
theorem install_flatten_disabled_still_flattens :
    rpC4.pack.installFlatten = false ∧
    (∃ sk ∈ rpC4.final_skills, sk.id = "a/b") ∧
    (∃ rec, outC2.2.2 = .ok rec ∧
      rec.installed_paths = ["/s/demo__a__b"]) ∧
    existsP outC2.1 ["", "s", "demo__a__b"] = true ∧
    existsP outC2.1 ["", "s", "demo__a", "b"] = false := by
  refine ⟨rfl, ⟨ResolvedSkill.mk "a/b" ["", "skill"] SkillSource.localSrc,
    by decide, rfl⟩, ⟨recC2, by decide, by decide⟩, by decide, by decide⟩

/-- C2 amended: the install name used by install_pack is always
prefix + sep + flatten_id(id, sep), i.e. the id with each slash replaced by
sep, and install_pack never consults the pack's installFlatten flag: toggling
it leaves the filesystem, the state and the returned record unchanged. -/
theorem install_name_always_flattened (base sep id : String)
    (resolved : ResolvedPack) (sink : String) (sinkPath : FPath)
    (state : StateFile) (fs : Fs) (now : String) (b : Bool) :
    install_name base sep id = base ++ sep ++ flatten_id id sep ∧
    install_pack
      (ResolvedPack.mk
        (Pack.mk resolved.pack.name resolved.pack.inc resolved.pack.exc
          resolved.pack.imports resolved.pack.installBase
          resolved.pack.installSep b)
        resolved.pack_file resolved.locals resolved.imports
        resolved.final_skills)
      sink sinkPath state fs now =
    install_pack resolved sink sinkPath state fs now := by
  cases resolved with
  | mk p pf loc imps fin =>
    cases p with
    | mk n i e im ba se fl => exact ⟨rfl, rfl⟩

/-! ## C7: idempotence of install -/

theorem findIdx?_set_found {α : Type} [Inhabited α] (p : α → Bool) (a : α)
    (ha : p a = true) :
    ∀ (l : List α) (idx : Nat), l.findIdx? p = some idx →
    ((l.set idx a).findIdx? p = some idx ∧
     (l.set idx a).getD idx default = a ∧
     (l.set idx a).find? p = some a) := by
  intro l
  induction l with
  | nil =>
    intro idx h
    rw [List.findIdx?_nil] at h
    exact Option.noConfusion h
  | cons x xs ih =>
    intro idx h
    rw [List.findIdx?_cons, List.findIdx?_succ] at h
    by_cases hx : p x = true
    · rw [if_pos hx] at h
      injection h with h2
      subst h2
      refine ⟨?_, rfl, List.find?_cons_of_pos _ ha⟩
      show (a :: xs).findIdx? p = some 0
      rw [List.findIdx?_cons, if_pos ha]
    · rw [if_neg hx] at h
      cases hxs : xs.findIdx? p with
      | none =>
        rw [hxs] at h
        exact Option.noConfusion h
      | some j =>
        rw [hxs] at h
        have h₃ : some (j + 1) = some idx := h
        injection h₃ with h₄
        subst h₄
        obtain ⟨h1, h2, h3⟩ := ih j hxs
        refine ⟨?_, ?_, ?_⟩
        · show (x :: xs.set j a).findIdx? p = some (j + 1)
          rw [List.findIdx?_cons, if_neg hx, List.findIdx?_succ, h1]
          rfl
        · show (x :: xs.set j a).getD (j + 1) default = a
          rw [List.getD_cons_succ]
          exact h2
        · show (x :: xs.set j a).find? p = some a
          rw [List.find?_cons_of_neg _ hx]
          exact h3

theorem findIdx?_append_found {α : Type} [Inhabited α] (p : α → Bool) (a : α)
    (ha : p a = true) :
    ∀ l : List α, l.findIdx? p = none →
    ((l ++ [a]).findIdx? p = some l.length ∧
     (l ++ [a]).getD l.length default = a ∧
     (l ++ [a]).find? p = some a) := by
  intro l
  induction l with
  | nil =>
    intro _
    refine ⟨?_, rfl, List.find?_cons_of_pos _ ha⟩
    show ([a] : List α).findIdx? p = some 0
    rw [List.findIdx?_cons, if_pos ha]
  | cons x xs ih =>
    intro h
    rw [List.findIdx?_cons, List.findIdx?_succ] at h
    by_cases hx : p x = true
    · rw [if_pos hx] at h
      exact Option.noConfusion h
    · rw [if_neg hx] at h
      have hxs : xs.findIdx? p = none := by
        cases hxs : xs.findIdx? p with
        | none => rfl
        | some j =>
          rw [hxs] at h
          have h₃ : some (j + 1) = none := h
          exact Option.noConfusion h₃
      obtain ⟨h1, h2, h3⟩ := ih hxs
      refine ⟨?_, ?_, ?_⟩
      · show (x :: (xs ++ [a])).findIdx? p = some (xs.length + 1)
        rw [List.findIdx?_cons, if_neg hx, List.findIdx?_succ, h1]
        rfl
      · show (x :: (xs ++ [a])).getD (xs.length + 1) default = a
        rw [List.getD_cons_succ]
        exact h2
      · show (x :: (xs ++ [a])).find? p = some a
        rw [List.find?_cons_of_neg _ hx]
        exact h3

theorem copySkillDir_ok_inv (fs : Fs) (src dest : FPath) (fsC : Fs)
    (h : copySkillDir fs src dest = .ok fsC) :
    ∀ p, existsP fs p = true → existsP fsC p = true := by
  cases hsrc : existsP fs src with
  | false =>
    unfold copySkillDir at h
    rw [if_pos (show (!existsP fs src) = true by rw [hsrc]; rfl)] at h
    exact Except.noConfusion h
  | true =>
    obtain ⟨fsW, heq, _, hmono, _⟩ := copySkillDir_ok fs src dest hsrc
    have h₂ : Except.ok (ε := Err) fsW = Except.ok fsC := heq.symm.trans h
    injection h₂ with h₃
    intro p hp
    rw [← h₃]
    exact hmono p hp

theorem removeStale_out (sinkPath : FPath) (newPaths : List String) :
    ∀ (olds : List String) (fs fs₂ : Fs),
    removeStale sinkPath newPaths olds fs = (fs₂, none) →
    ∀ p, ¬ sinkPath <+: p → existsP fs p = true → existsP fs₂ p = true := by
  intro olds
  induction olds with
  | nil =>
    intro fs fs₂ h p hp hep
    simp only [removeStale] at h
    have h₁ : fs = fs₂ := congrArg (fun z => z.1) h
    rw [← h₁]
    exact hep
  | cons o rest ih =>
    intro fs fs₂ h p hp hep
    simp only [removeStale] at h
    by_cases hc : newPaths.contains o = true
    · rw [if_pos hc] at h
      exact ih fs fs₂ h p hp hep
    · rw [if_neg hc] at h
      by_cases hpre : sinkPath.isPrefixOf (parsePath o) = true
      · rw [if_pos hpre] at h
        refine ih _ fs₂ h p hp ?_
        by_cases hex : existsP fs (parsePath o) = true
        · rw [if_pos hex]
          refine existsP_removeDirAll_of_not_pfx _ _ _ ?_ hep
          intro hpp
          exact hp ((List.isPrefixOf_iff_prefix.mp hpre).trans hpp)
        · rw [if_neg hex]
          exact hep
      · rw [if_neg hpre] at h
        exact Option.noConfusion (congrArg (fun z => z.2) h)

theorem stalePhase_out (state : StateFile) (sinkPath : FPath)
    (packName : String) (newPaths : List String) (fs fs₂ : Fs)
    (h : stalePhase state sinkPath packName newPaths fs = (fs₂, none)) :
    ∀ p, ¬ sinkPath <+: p → existsP fs p = true → existsP fs₂ p = true := by
  intro p hp hep
  unfold stalePhase at h
  cases hf : find_record_index state sinkPath packName with
  | some idx =>
    rw [hf] at h
    dsimp only at h
    exact removeStale_out sinkPath newPaths _ fs fs₂ h p hp hep
  | none =>
    rw [hf] at h
    dsimp only at h
    have h₁ : fs = fs₂ := congrArg (fun z => z.1) h
    rw [← h₁]
    exact hep

theorem installSkills_out (base sep : String) (sinkPath : FPath)
    (state : StateFile) (packName : String) :
    ∀ (skills : List ResolvedSkill) (fs fs₂ : Fs),
    installSkills base sep sinkPath state packName skills fs = (fs₂, none) →
    ∀ p, ¬ sinkPath <+: p → existsP fs p = true → existsP fs₂ p = true := by
  intro skills
  induction skills with
  | nil =>
    intro fs fs₂ h p hp hep
    simp only [installSkills] at h
    have h₁ : fs = fs₂ := congrArg (fun z => z.1) h
    rw [← h₁]
    exact hep
  | cons sk0 rest ih =>
    intro fs fs₂ h p hp hep
    simp only [installSkills] at h
    by_cases hex : existsP fs
        (sinkPath ++ parsePath (install_name base sep sk0.id)) = true
    · rw [if_pos hex] at h
      by_cases hown : record_owned_path state sinkPath packName
          (sinkPath ++ parsePath (install_name base sep sk0.id)) = true
      · rw [if_neg (by rw [hown]; simp)] at h
        rw [ensure_child_ok] at h
        dsimp only at h
        cases hcp : copySkillDir (removeDirAll fs
            (sinkPath ++ parsePath (install_name base sep sk0.id)))
            sk0.dir (sinkPath ++ parsePath (install_name base sep sk0.id)) with
        | error e =>
          rw [hcp] at h
          dsimp only at h
          exact Option.noConfusion (congrArg (fun z => z.2) h)
        | ok fsC =>
          rw [hcp] at h
          dsimp only at h
          refine ih fsC fs₂ h p hp ?_
          refine copySkillDir_ok_inv _ _ _ _ hcp p ?_
          refine existsP_removeDirAll_of_not_pfx _ _ _ ?_ hep
          exact not_dest_prefix_dir sinkPath _ p _ rfl hp
      · have hrf : record_owned_path state sinkPath packName
            (sinkPath ++ parsePath (install_name base sep sk0.id)) = false := by
          cases hb : record_owned_path state sinkPath packName
              (sinkPath ++ parsePath (install_name base sep sk0.id)) with
          | true => exact absurd hb hown
          | false => rfl
        rw [hrf] at h
        rw [if_pos (show (!false) = true from rfl)] at h
        exact Option.noConfusion (congrArg (fun z => z.2) h)
    · rw [if_neg hex] at h
      cases hcp : copySkillDir fs sk0.dir
          (sinkPath ++ parsePath (install_name base sep sk0.id)) with
      | error e =>
        rw [hcp] at h
        dsimp only at h
        exact Option.noConfusion (congrArg (fun z => z.2) h)
      | ok fsC =>
        rw [hcp] at h
        dsimp only at h
        exact ih fsC fs₂ h p hp (copySkillDir_ok_inv _ _ _ _ hcp p hep)

theorem installSkills_success (base sep : String) (sinkPath : FPath)
    (state : StateFile) (packName : String) :
    ∀ (skills : List ResolvedSkill) (fs : Fs),
    (∀ sk ∈ skills, existsP fs sk.dir = true ∧ ¬ sinkPath <+: sk.dir) →
    (∀ sk ∈ skills, record_owned_path state sinkPath packName
      (sinkPath ++ parsePath (install_name base sep sk.id)) = true) →
    ∃ fs₂, installSkills base sep sinkPath state packName skills fs =
      (fs₂, none) := by
  intro skills
  induction skills with
  | nil =>
    intro fs _ _
    exact ⟨fs, rfl⟩
  | cons sk0 rest ih =>
    intro fs hsrc hown
    have hmem0 : sk0 ∈ sk0 :: rest := List.mem_cons_self sk0 rest
    cases hex : existsP fs
        (sinkPath ++ parsePath (install_name base sep sk0.id)) with
    | true =>
      have hsrcr : existsP (removeDirAll fs
          (sinkPath ++ parsePath (install_name base sep sk0.id)))
          sk0.dir = true := by
        refine existsP_removeDirAll_of_not_pfx _ _ _ ?_ (hsrc sk0 hmem0).1
        exact not_dest_prefix_dir sinkPath _ sk0.dir _ rfl (hsrc sk0 hmem0).2
      obtain ⟨fsC, hcopy, _, hcmono, _⟩ :=
        copySkillDir_ok (removeDirAll fs
          (sinkPath ++ parsePath (install_name base sep sk0.id)))
          sk0.dir (sinkPath ++ parsePath (install_name base sep sk0.id)) hsrcr
      obtain ⟨fs₂, heq⟩ := ih fsC
        (fun sk hm => ⟨hcmono _ (existsP_removeDirAll_of_not_pfx _ _ _
            (not_dest_prefix_dir sinkPath _ sk.dir _ rfl
              (hsrc sk (List.mem_cons_of_mem sk0 hm)).2)
            (hsrc sk (List.mem_cons_of_mem sk0 hm)).1),
          (hsrc sk (List.mem_cons_of_mem sk0 hm)).2⟩)
        (fun sk hm => hown sk (List.mem_cons_of_mem sk0 hm))
      refine ⟨fs₂, ?_⟩
      simp only [installSkills]
      rw [if_pos hex, if_neg (by rw [hown sk0 hmem0]; simp), ensure_child_ok,
        hcopy]
      exact heq
    | false =>
      obtain ⟨fsC, hcopy, _, hcmono, _⟩ :=
        copySkillDir_ok fs sk0.dir
          (sinkPath ++ parsePath (install_name base sep sk0.id))
          (hsrc sk0 hmem0).1
      obtain ⟨fs₂, heq⟩ := ih fsC
        (fun sk hm => ⟨hcmono _ (hsrc sk (List.mem_cons_of_mem sk0 hm)).1,
          (hsrc sk (List.mem_cons_of_mem sk0 hm)).2⟩)
        (fun sk hm => hown sk (List.mem_cons_of_mem sk0 hm))
      refine ⟨fs₂, ?_⟩
      simp only [installSkills]
      rw [if_neg (by rw [hex]; simp), hcopy]
      exact heq

theorem install_pack_ok_inv (resolved : ResolvedPack) (sink : String)
    (sinkPath : FPath) (state : StateFile) (fs0 : Fs) (now : String)
    (fs₂ : Fs) (st₂ : StateFile) (rec : InstallRecord)
    (h : install_pack resolved sink sinkPath state fs0 now =
      (fs₂, st₂, .ok rec)) :
    ∃ fsS,
      stalePhase state sinkPath resolved.pack.name
        (build_install_paths resolved.final_skills sinkPath
          resolved.pack.installBase resolved.pack.installSep)
        (createDirAll fs0 sinkPath) = (fsS, none) ∧
      installSkills resolved.pack.installBase resolved.pack.installSep
        sinkPath state resolved.pack.name resolved.final_skills fsS =
        (fs₂, none) ∧
      rec = mkInstallRecord resolved sink sinkPath now ∧
      st₂ = (match find_record_index state sinkPath resolved.pack.name with
        | some idx => StateFile.mk state.version (state.installs.set idx
            (mkInstallRecord resolved sink sinkPath now))
        | none => StateFile.mk state.version (state.installs ++
            [mkInstallRecord resolved sink sinkPath now])) := by
  unfold install_pack at h
  rcases hS : stalePhase state sinkPath resolved.pack.name
      (build_install_paths resolved.final_skills sinkPath
        resolved.pack.installBase resolved.pack.installSep)
      (createDirAll fs0 sinkPath) with ⟨fsS, oe⟩
  rw [hS] at h
  cases oe with
  | some e =>
    dsimp only at h
    exact Except.noConfusion (congrArg (fun z => z.2.2) h)
  | none =>
    dsimp only at h
    rcases hI : installSkills resolved.pack.installBase
        resolved.pack.installSep sinkPath state resolved.pack.name
        resolved.final_skills fsS with ⟨fs₃, oe₂⟩
    rw [hI] at h
    cases oe₂ with
    | some e =>
      dsimp only at h
      exact Except.noConfusion (congrArg (fun z => z.2.2) h)
    | none =>
      dsimp only at h
      have hfs : fs₃ = fs₂ := congrArg (fun z => z.1) h
      have hst : (match find_record_index state sinkPath resolved.pack.name with
          | some idx => StateFile.mk state.version (state.installs.set idx
              (mkInstallRecord resolved sink sinkPath now))
          | none => StateFile.mk state.version (state.installs ++
              [mkInstallRecord resolved sink sinkPath now])) = st₂ :=
        congrArg (fun z => z.2.1) h
      have hrc : Except.ok (ε := Err)
          (mkInstallRecord resolved sink sinkPath now) = Except.ok rec :=
        congrArg (fun z => z.2.2) h
      injection hrc with hrc₂
      refine ⟨fsS, rfl, ?_, hrc₂.symm, hst.symm⟩
      rw [← hfs]
      exact hI

/-- C7.  If install_pack succeeds once (from any starting state), then a
second install of the same resolved pack into the same sink path, run on the
state and filesystem the first install produced, also succeeds, and the new
record's installed_paths list is identical to the first record's, so the
count of added paths (new paths not already present among the old ones) is
zero.  The hypothesis pins what resolve guarantees in the source: every final
skill's directory exists and lies outside the sink. -/
theorem install_idempotent (resolved : ResolvedPack) (sink : String)
    (sinkPath : FPath) (state : StateFile) (fs0 : Fs) (now1 now2 : String)
    (fs1 : Fs) (st1 : StateFile) (rec1 : InstallRecord)
    (hsrc : ∀ sk ∈ resolved.final_skills,
      existsP fs0 sk.dir = true ∧ ¬ sinkPath <+: sk.dir)
    (h1 : install_pack resolved sink sinkPath state fs0 now1 =
      (fs1, st1, .ok rec1)) :
    ∃ fs2 st2 rec2,
      install_pack resolved sink sinkPath st1 fs1 now2 =
        (fs2, st2, .ok rec2) ∧
      rec2.installed_paths = rec1.installed_paths ∧
      (rec2.installed_paths.filter
        fun q => !rec1.installed_paths.contains q).length = 0 := by
  obtain ⟨fsS, hstale1, hskills1, hrec1, hst1⟩ :=
    install_pack_ok_inv resolved sink sinkPath state fs0 now1 fs1 st1 rec1 h1
  have hsrc1 : ∀ sk ∈ resolved.final_skills,
      existsP fs1 sk.dir = true ∧ ¬ sinkPath <+: sk.dir := by
    intro sk hm
    refine ⟨?_, (hsrc sk hm).2⟩
    refine installSkills_out _ _ _ _ _ _ _ _ hskills1 sk.dir (hsrc sk hm).2 ?_
    refine stalePhase_out _ _ _ _ _ _ hstale1 sk.dir (hsrc sk hm).2 ?_
    exact existsP_createDirAll_mono fs0 sinkPath sk.dir (hsrc sk hm).1
  have hp1 : (fun r : InstallRecord => r.sink_path == pathToString sinkPath &&
      r.pack == resolved.pack.name) rec1 = true := by
    rw [hrec1]
    simp [mkInstallRecord]
  have hpaths1 : rec1.installed_paths =
      build_install_paths resolved.final_skills sinkPath
        resolved.pack.installBase resolved.pack.installSep := by
    rw [hrec1]
    rfl
  have hfst : ∃ j, find_record_index st1 sinkPath resolved.pack.name = some j ∧
      st1.installs.getD j default = rec1 ∧
      st1.installs.find? (fun r => r.sink_path == pathToString sinkPath &&
        r.pack == resolved.pack.name) = some rec1 := by
    cases hf0 : find_record_index state sinkPath resolved.pack.name with
    | some idx =>
      rw [hf0] at hst1
      dsimp only at hst1
      rw [← hrec1] at hst1
      have hidx0 : state.installs.findIdx?
          (fun r => r.sink_path == pathToString sinkPath &&
            r.pack == resolved.pack.name) = some idx := hf0
      obtain ⟨g1, g2, g3⟩ := findIdx?_set_found _ rec1 hp1 state.installs idx hidx0
      refine ⟨idx, ?_, ?_, ?_⟩
      · rw [hst1]
        exact g1
      · rw [hst1]
        exact g2
      · rw [hst1]
        exact g3
    | none =>
      rw [hf0] at hst1
      dsimp only at hst1
      rw [← hrec1] at hst1
      have hidx0 : state.installs.findIdx?
          (fun r => r.sink_path == pathToString sinkPath &&
            r.pack == resolved.pack.name) = none := hf0
      obtain ⟨g1, g2, g3⟩ := findIdx?_append_found _ rec1 hp1 state.installs hidx0
      refine ⟨state.installs.length, ?_, ?_, ?_⟩
      · rw [hst1]
        exact g1
      · rw [hst1]
        exact g2
      · rw [hst1]
        exact g3
  obtain ⟨j, hfind1, hgetD1, hfindq1⟩ := hfst
  have hstale2 : stalePhase st1 sinkPath resolved.pack.name
      (build_install_paths resolved.final_skills sinkPath
        resolved.pack.installBase resolved.pack.installSep)
      (createDirAll fs1 sinkPath) = (createDirAll fs1 sinkPath, none) := by
    unfold stalePhase
    rw [hfind1]
    dsimp only
    rw [hgetD1, hpaths1]
    exact removeStale_subset _ _ _ _
      (fun o ho => (contains_iff_mem _ _).mpr ho)
  have hown2 : ∀ sk ∈ resolved.final_skills,
      record_owned_path st1 sinkPath resolved.pack.name
        (sinkPath ++ parsePath (install_name resolved.pack.installBase
          resolved.pack.installSep sk.id)) = true := by
    intro sk hm
    simp only [record_owned_path]
    rw [hfindq1]
    show rec1.installed_paths.contains (pathToString (sinkPath ++
      parsePath (install_name resolved.pack.installBase
        resolved.pack.installSep sk.id))) = true
    rw [hpaths1]
    refine (contains_iff_mem _ _).mpr ?_
    unfold build_install_paths
    refine (sortByLe_perm strLe _).mem_iff.mpr ?_
    exact List.mem_map_of_mem _ hm
  have hsrc2 : ∀ sk ∈ resolved.final_skills,
      existsP (createDirAll fs1 sinkPath) sk.dir = true ∧
      ¬ sinkPath <+: sk.dir :=
    fun sk hm => ⟨existsP_createDirAll_mono fs1 sinkPath sk.dir
      (hsrc1 sk hm).1, (hsrc1 sk hm).2⟩
  obtain ⟨fs2, hskills2⟩ := installSkills_success resolved.pack.installBase
    resolved.pack.installSep sinkPath st1 resolved.pack.name
    resolved.final_skills (createDirAll fs1 sinkPath) hsrc2 hown2
  have hfl : ∀ l : List String, (l.filter fun q => !l.contains q) = [] := by
    intro l
    refine List.filter_eq_nil_iff.mpr ?_
    intro q hq
    rw [(contains_iff_mem l q).mpr hq]
    simp
  refine ⟨fs2, StateFile.mk st1.version (st1.installs.set j
      (mkInstallRecord resolved sink sinkPath now2)),
    mkInstallRecord resolved sink sinkPath now2, ?_,
    by rw [hpaths1]; rfl, ?_⟩
  · unfold install_pack
    rw [hstale2]
    dsimp only
    rw [hskills2]
    dsimp only
    rw [hfind1]
  · have hmk : (mkInstallRecord resolved sink sinkPath now2).installed_paths =
        build_install_paths resolved.final_skills sinkPath
          resolved.pack.installBase resolved.pack.installSep := rfl
    rw [hmk, hpaths1, hfl]
    rfl

/-- C7 witness: the concrete first install of packC5 into the empty state and
sink /s, followed by the second install on its outputs. -/
theorem install_idempotent_witness :
    ∃ fs2 st2 rec2,
      install_pack (resolvedC5 ["", "skill"]) "codex" ["", "s"] outC7a.2.1
        outC7a.1 "t2" = (fs2, st2, .ok rec2) ∧
      rec2.installed_paths = recC7a.installed_paths ∧
      (rec2.installed_paths.filter
        fun q => !recC7a.installed_paths.contains q).length = 0 :=
  install_idempotent (resolvedC5 ["", "skill"]) "codex" ["", "s"]
    (StateFile.mk 1 []) fsC7 "t1" "t2" outC7a.1 outC7a.2.1 recC7a
    (by decide) (by decide)

end Skillpack
